import Mathlib

/-!
# go_defender: a per-key rate limiter with temporary bans

A shallow embedding of `client.go` and `defender.go`.

* Two models of the map are given. In `Defender` each key holds the value of
  its client, and a write through the `*Client` fetched from the map is the
  storing of the updated client back under the same key (`Defender.store`);
  this describes the states in which no client is stored under two keys, as
  are all the states the defender builds itself (`NewClient` allocates one
  client per key). In `PtrDefender` the map holds addresses and the clients
  live in a heap, so that two keys may hold the same `*Client`;
  `Increment_represents` shows that the two models agree as long as no client
  is shared. A nil `*rate.Limiter` is `none`, and dereferencing it (a Go panic)
  makes the enclosing call return `none`.
* `time.Now()` is an input: every place where the code reads the wall clock
  takes the reading as an explicit argument.
* Each operation is one sequential step on the state; reading methods return
  the state along with their result. The use of the mutex is described apart,
  by the sequence of lock, unlock and map accesses of each method.
-/

namespace time

/-- An instant (`time.Time`), counted in nanoseconds from the zero `Time`. -/
abbrev Time := Int

/-- A `time.Duration`: a signed count of nanoseconds (int64 in Go). -/
abbrev Duration := Int

/-- The method `t.Add(d)`. -/
def Time.Add (t : Time) (d : Duration) : Time := t + d

/-- The method `t.After(u)`. -/
def Time.After (t u : Time) : Bool := decide (u < t)

/-- The method `t.Before(u)`. -/
def Time.Before (t u : Time) : Bool := decide (t < u)

/-- The method `t.Sub(u)`. -/
def Time.Sub (t u : Time) : Duration := t - u

end time

/-- Two's-complement wrap-around of an int64 result. -/
def wrapInt64 (x : Int) : Int := (x + 2 ^ 63) % 2 ^ 64 - 2 ^ 63

namespace rate

/-- Modelled from the spec: `rate.Limit` of golang.org/x/time/rate, the external
token-bucket collaborator, whose code is not part of the sources. A limit is
either `Inf` (every event allowed) or one event per `interval` nanoseconds. -/
inductive Limit where
  | inf : Limit
  | oneEvery (interval : time.Duration) : Limit
deriving DecidableEq, Repr

/-- Modelled from the spec: `rate.Every(interval)`, the limit of one event per
`interval`; a non-positive interval gives `Inf`. -/
def Every (interval : time.Duration) : Limit :=
  if interval ≤ 0 then Limit.inf else Limit.oneEvery interval

/-- Modelled from the spec: the number of tokens a limit generates over an
elapsed duration (continuous refill; exact rationals stand for float64). -/
def Limit.tokensFromDuration : Limit → time.Duration → ℚ
  | Limit.inf, _ => 0
  | Limit.oneEvery interval, d => (d : ℚ) / (interval : ℚ)

/-- Modelled from the spec: `rate.Limiter`, a token bucket holding at most
`burst` tokens, refilled at `limit`; `last` is the time `tokens` was last
updated. -/
structure Limiter where
  limit : Limit
  burst : Int
  tokens : ℚ
  last : time.Time
deriving DecidableEq

/-- Modelled from the spec: `rate.NewLimiter(r, b)`; the bucket starts full. -/
def NewLimiter (r : Limit) (b : Int) : Limiter :=
  { limit := r, burst := b, tokens := (b : ℚ), last := 0 }

/-- Modelled from the spec: the token count at time `t`, after accounting for
the time elapsed since `last` (never more than `burst`). -/
def Limiter.advance (lim : Limiter) (t : time.Time) : ℚ :=
  let last := if t.Before lim.last then t else lim.last
  let elapsed := t.Sub last
  let tokens := lim.tokens + lim.limit.tokensFromDuration elapsed
  if (lim.burst : ℚ) < tokens then (lim.burst : ℚ) else tokens

/-- Modelled from the spec: `lim.AllowN(t, n)`: whether `n` events may happen at
time `t`, and the limiter afterwards. The tokens are taken only when the
events are allowed; a denied request leaves the limiter as it was. -/
def Limiter.AllowN (lim : Limiter) (t : time.Time) (n : Int) : Bool × Limiter :=
  match lim.limit with
  | Limit.inf => (true, lim)
  | Limit.oneEvery _ =>
    let tokens := lim.advance t - (n : ℚ)
    if n ≤ lim.burst ∧ 0 ≤ tokens then
      (true, { lim with last := t, tokens := tokens })
    else
      (false, lim)

end rate

namespace GoDefender

variable {K : Type} [DecidableEq K]

/-! ## client.go -/

/-- The struct `Client[T]`. -/
structure Client (K : Type) where
  limiter : Option rate.Limiter
  expiresAt : time.Time
  banned : Bool
  key : K
deriving DecidableEq

def Client.Key (c : Client K) : K := c.key

def Client.Banned (c : Client K) : Bool := c.banned

def Client.ExpiresAt (c : Client K) : time.Time := c.expiresAt

/-- The method `Expired()`; `wall` is the reading of `time.Now()`. -/
def Client.Expired (c : Client K) (wall : time.Time) : Bool :=
  wall.After c.expiresAt

/-- The method `BanExpired()`; `wall` is the reading of `time.Now()` inside `Expired`. -/
def Client.BanExpired (c : Client K) (wall : time.Time) : Bool :=
  c.banned && c.Expired wall

def Client.Ban (c : Client K) : Client K := { c with banned := true }

def Client.Unban (c : Client K) : Client K := { c with banned := false }

def Client.SetExpiration (c : Client K) (expireAt : time.Time) : Client K :=
  { c with expiresAt := expireAt }

/-- The method `ReachedLimit()`; `wall` is the reading of `time.Now()`. The result is
`none` when the limiter is nil; otherwise the answer and the client with its
limiter updated by the call of `AllowN`. -/
def Client.ReachedLimit (c : Client K) (wall : time.Time) : Option (Bool × Client K) :=
  match c.limiter with
  | none => none
  | some lim =>
    let r := lim.AllowN wall 1
    some (!r.1, { c with limiter := some r.2 })

def NewClient (key : K) (limiter : Option rate.Limiter) (expiresAt : time.Time) : Client K :=
  { key := key, limiter := limiter, expiresAt := expiresAt, banned := false }

/-! ## defender.go -/

def Factor : Int := 10

/-- The struct `Defender[T]` (without its mutex). -/
structure Defender (K : Type) where
  clients : AList (fun _ : K => Client K)
  Duration : time.Duration
  BanDuration : time.Duration
  Max : Int
deriving DecidableEq

def NewDefender (max : Int) (duration banDuration : time.Duration) : Defender K :=
  { clients := ∅, Duration := duration, BanDuration := banDuration, Max := max }

/-- The method `BanList()`: the banned clients met by the loop over the map, in
the order of the loop, and the defender after the call (nothing is written). -/
def Defender.BanList (d : Defender K) : List (GoDefender.Client K) × Defender K :=
  let visit := fun (banList : List (GoDefender.Client K)) (e : (_ : K) × GoDefender.Client K) =>
    if e.2.banned then banList ++ [e.2] else banList
  (d.clients.entries.foldl visit [], d)

/-- The method `Client(key)`: the client and the flag `ok` of the map lookup
(`none` is the nil client), and the defender after the call (nothing is
written). -/
def Defender.Client (d : Defender K) (key : K) :
    (Option (GoDefender.Client K) × Bool) × Defender K :=
  match d.clients.lookup key with
  | some client => ((some client, true), d)
  | none => ((none, false), d)

def Defender.newLimiter (d : Defender K) : rate.Limiter :=
  rate.NewLimiter (rate.Every d.Duration) d.Max

def Defender.newClientExpiration (_d : Defender K) (now : time.Time)
    (duration : time.Duration) : time.Time :=
  now.Add duration

/-- The product `d.Duration*Factor` is an int64 product. -/
def Defender.newValidClientExpiration (d : Defender K) (now : time.Time) : time.Time :=
  d.newClientExpiration now (wrapInt64 (d.Duration * Factor))

def Defender.newBannedClientExpiration (d : Defender K) (now : time.Time) : time.Time :=
  d.newClientExpiration now d.BanDuration

/-- The effect on the map of the writes made through the `*Client` stored at
`key`, when that client is stored under `key` only: the entry at `key` now
holds `client`. (`PtrDefender.write` is the write itself, which reaches every
key holding the same pointer.) -/
def Defender.store (d : Defender K) (key : K) (client : GoDefender.Client K) : Defender K :=
  { d with clients := d.clients.replace key client }

/-- The method `Increment(key, now)`. Here `wallExpired` is the reading of `time.Now()` in
`BanExpired` and `wallLimit` the one in `ReachedLimit`. The result is `none`
when the call panics on a nil limiter. -/
def Defender.Increment (d : Defender K) (key : K) (now : time.Time)
    (wallExpired wallLimit : time.Time) : Option (Bool × Defender K) :=
  match d.clients.lookup key with
  | none =>
    let client := NewClient key (some d.newLimiter) (d.newValidClientExpiration now)
    some (false, { d with clients := d.clients.insert key client })
  | some client =>
    let client := if client.BanExpired wallExpired then client.Unban else client
    if client.Banned then
      some (true, d.store key client)
    else
      let client := client.SetExpiration (d.newValidClientExpiration now)
      match client.ReachedLimit wallLimit with
      | none => none
      | some (true, client) =>
        let client := client.Ban
        let client := client.SetExpiration (d.newBannedClientExpiration now)
        some (true, d.store key client)
      | some (false, client) =>
        some (false, d.store key client)

/-- The method `Cleanup()`: the loop over the entries of the map; `wall key` is the
reading of `time.Now()` when the entry at `key` is visited. -/
def Defender.Cleanup (d : Defender K) (wall : K → time.Time) : Defender K :=
  let visit := fun (m : AList (fun _ : K => GoDefender.Client K)) (e : (_ : K) × GoDefender.Client K) =>
    if e.2.Expired (wall e.1) then m.erase e.1 else m
  { d with clients := d.clients.entries.foldl visit d.clients }

/-! ## The map as a map of pointers

The type of `clients` is `map[T]*Client[T]`: the same pointer can be stored
under two keys, and a write through it is then seen under both. -/

/-- The address of a client. -/
abbrev Ptr := Nat

/-- The struct `Defender[T]` with its pointers: `clients` gives the address
stored under a key, `heap` the client at an address (`none` where there is no
client, as at the nil pointer). -/
structure PtrDefender (K : Type) where
  clients : AList (fun _ : K => Ptr)
  heap : Ptr → Option (Client K)
  Duration : time.Duration
  BanDuration : time.Duration
  Max : Int

/-- The client a key maps to: the one at the address stored under the key. -/
def PtrDefender.clientAt (d : PtrDefender K) (key : K) : Option (Client K) :=
  (d.clients.lookup key).bind d.heap

/-- The address of a newly allocated client: one that is not stored in the
map. -/
def PtrDefender.fresh (d : PtrDefender K) : Ptr :=
  (d.clients.entries.map (fun e => e.2)).foldr max 0 + 1

/-- A write through the pointer `p`: the client at `p` is now `client`, under
every key that holds `p`. -/
def PtrDefender.write (d : PtrDefender K) (p : Ptr) (client : Client K) : PtrDefender K :=
  { d with heap := Function.update d.heap p (some client) }

def PtrDefender.newLimiter (d : PtrDefender K) : rate.Limiter :=
  rate.NewLimiter (rate.Every d.Duration) d.Max

def PtrDefender.newValidClientExpiration (d : PtrDefender K) (now : time.Time) : time.Time :=
  now.Add (wrapInt64 (d.Duration * Factor))

def PtrDefender.newBannedClientExpiration (d : PtrDefender K) (now : time.Time) : time.Time :=
  now.Add d.BanDuration

/-- The method `Increment(key, now)` on the map of pointers; the arguments are
those of `Defender.Increment`. The result is `none` when the call panics, on a
nil client or on a nil limiter. -/
def PtrDefender.Increment (d : PtrDefender K) (key : K) (now : time.Time)
    (wallExpired wallLimit : time.Time) : Option (Bool × PtrDefender K) :=
  match d.clients.lookup key with
  | none =>
    let client := NewClient key (some d.newLimiter) (d.newValidClientExpiration now)
    let p := d.fresh
    some (false, { d with clients := d.clients.insert key p, heap := Function.update d.heap p (some client) })
  | some p =>
    match d.heap p with
    | none => none
    | some client =>
      let client := if client.BanExpired wallExpired then client.Unban else client
      if client.Banned then
        some (true, d.write p client)
      else
        let client := client.SetExpiration (d.newValidClientExpiration now)
        match client.ReachedLimit wallLimit with
        | none => none
        | some (true, client) =>
          let client := client.Ban
          let client := client.SetExpiration (d.newBannedClientExpiration now)
          some (true, d.write p client)
        | some (false, client) =>
          some (false, d.write p client)

/-- No client is stored under two keys. -/
def PtrDefender.Unshared (d : PtrDefender K) : Prop :=
  ∀ k1 k2 p, d.clients.lookup k1 = some p → d.clients.lookup k2 = some p → k1 = k2

/-- The defender of values `d` describes the defender of pointers `pd`: the
same settings, every stored address holds a client, and each key maps to the
same client in both. -/
def Represents (pd : PtrDefender K) (d : Defender K) : Prop :=
  pd.Duration = d.Duration ∧ pd.BanDuration = d.BanDuration ∧ pd.Max = d.Max ∧
  (∀ k p, pd.clients.lookup k = some p → pd.heap p ≠ none) ∧
  (∀ k, pd.clientAt k = d.clients.lookup k)

/-! ## Reachable states -/

/-- The states a defender built by `NewDefender(max, duration, banDuration)`
goes through under calls of `Increment` that return and calls of `Cleanup`. -/
inductive Reachable (max : Int) (duration banDuration : time.Duration) : Defender K → Prop where
  | init : Reachable max duration banDuration (NewDefender max duration banDuration)
  | increment {d d' : Defender K} {key : K} {now wallExpired wallLimit : time.Time} {b : Bool} :
      Reachable max duration banDuration d →
      d.Increment key now wallExpired wallLimit = some (b, d') →
      Reachable max duration banDuration d'
  | cleanup {d : Defender K} (wall : K → time.Time) :
      Reachable max duration banDuration d →
      Reachable max duration banDuration (d.Cleanup wall)

/-! ## The use of the mutex

Each method is read as the sequence of its operations on the mutex and of its
accesses to `d.clients` (or to a client stored in it), in program order. -/

/-- An operation on the mutex of the defender, or an access to its map. -/
inductive MutexOp where
  | lock : MutexOp
  | unlock : MutexOp
  | access : MutexOp
deriving DecidableEq, Repr

/-- Whether every access of a sequence happens while the mutex is held;
`held` tells whether it is held at the start. -/
def guarded : Bool → List MutexOp → Bool
  | _, [] => true
  | _, MutexOp.lock :: ops => guarded true ops
  | _, MutexOp.unlock :: ops => guarded false ops
  | held, MutexOp.access :: ops => held && guarded held ops

/-- The operations of `BanList()`: `len(d.clients)`, then the loop reading each
entry; there is no `d.Lock()`. -/
def Defender.BanListOps (d : Defender K) : List MutexOp :=
  MutexOp.access :: d.clients.entries.map (fun _ => MutexOp.access)

/-- The operations of `Client(key)`: `d.Lock()`, the lookup, and the deferred
`d.Unlock()`. -/
def Defender.ClientOps (_d : Defender K) (_key : K) : List MutexOp :=
  [MutexOp.lock, MutexOp.access, MutexOp.unlock]

/-- The operations of `Increment(key, now)`: `d.Lock()`, the lookup, then either
the store of the new client or the calls on the client found (`BanExpired`,
`Unban`, `Banned`, `SetExpiration`, `ReachedLimit`, `Ban`, `SetExpiration`, as
far as the call goes), and the deferred `d.Unlock()`. -/
def Defender.IncrementOps (d : Defender K) (key : K) (wallExpired wallLimit : time.Time) :
    List MutexOp :=
  match d.clients.lookup key with
  | none => [MutexOp.lock, MutexOp.access, MutexOp.access, MutexOp.unlock]
  | some client =>
    let unban := if client.BanExpired wallExpired then [MutexOp.access] else []
    let client := if client.BanExpired wallExpired then client.Unban else client
    if client.Banned then
      [MutexOp.lock, MutexOp.access, MutexOp.access] ++ unban ++ [MutexOp.access, MutexOp.unlock]
    else
      let ban :=
        match client.ReachedLimit wallLimit with
        | some (true, _) => [MutexOp.access, MutexOp.access]
        | _ => []
      [MutexOp.lock, MutexOp.access, MutexOp.access] ++ unban
        ++ [MutexOp.access, MutexOp.access, MutexOp.access] ++ ban ++ [MutexOp.unlock]

/-- The operations of `Cleanup()`: `d.Lock()`, for each entry the read of the
loop and, if the client is expired, the `delete`, and the deferred
`d.Unlock()`. -/
def Defender.CleanupOps (d : Defender K) (wall : K → time.Time) : List MutexOp :=
  let visit := fun (e : (_ : K) × GoDefender.Client K) =>
    if e.2.Expired (wall e.1) then [MutexOp.access, MutexOp.access] else [MutexOp.access]
  MutexOp.lock :: ((d.clients.entries.map visit).flatten ++ [MutexOp.unlock])

/-! ## Example states (the values of the test suite: a window of one minute,
bans of one hour, at most 50 events) -/

def exNow : time.Time := 1000000000000000000

def exMinute : time.Duration := 60000000000

def exHour : time.Duration := 3600000000000

/-- A defender that tracks nobody. -/
def exEmpty : Defender String := NewDefender 50 exMinute exHour

/-- A limiter with burst 1 whose token was taken at `exNow`. -/
def exSpentLimiter : rate.Limiter :=
  { limit := rate.Limit.oneEvery exMinute, burst := 1, tokens := 0, last := exNow }

/-- A defender tracking the single client `client` under `"key1"`. -/
def exTracking (client : Client String) : Defender String :=
  { clients := AList.singleton "key1" client, Duration := exMinute, BanDuration := exHour,
    Max := 50 }

/-- A client with a full limiter. -/
def exClient (banned : Bool) (expiresAt : time.Time) : Client String :=
  { key := "key1", limiter := some (rate.NewLimiter (rate.Every exMinute) 50),
    expiresAt := expiresAt, banned := banned }

/-- A client whose limiter has nothing left. -/
def exSpentClient (banned : Bool) (expiresAt : time.Time) : Client String :=
  { key := "key1", limiter := some exSpentLimiter, expiresAt := expiresAt, banned := banned }

def exSecond : time.Duration := 1000000000

def exMilli : time.Duration := 1000000

/-- A defender with at most one event per second, tracking nobody. -/
def exStrict : Defender String := NewDefender 1 exSecond exHour

/-- The defender `exEmpty` after a first call of `Increment` for `"key1"` at
`exNow`. -/
def exAfterFirst : Defender String :=
  { exEmpty with clients := exEmpty.clients.insert "key1" (NewClient "key1" (some exEmpty.newLimiter) (exEmpty.newValidClientExpiration exNow)) }

/-- One call of `Increment` for a fixed key: its argument `now` and the two
readings of the wall clock taken during the call. -/
structure Call where
  now : time.Time
  wallExpired : time.Time
  wallLimit : time.Time
deriving DecidableEq

/-- A call made at wall-clock time `t` with `time.Now()` as its argument. -/
def Call.atTime (t : time.Time) : Call :=
  { now := t, wallExpired := t, wallLimit := t }

/-- A sequence of `Increment` calls for the same key, one after the other: the
list of their results and the final state (`none` if one of them panics). -/
def Defender.run (d : Defender K) (key : K) : List Call → Option (List Bool × Defender K)
  | [] => some ([], d)
  | c :: cs =>
    match d.Increment key c.now c.wallExpired c.wallLimit with
    | none => none
    | some (b, d') =>
      match d'.run key cs with
      | none => none
      | some (bs, d'') => some (b :: bs, d'')

end GoDefender

namespace GoDefender

variable {K : Type} [DecidableEq K]

/-! ## The map: writes through a stored client -/

section MapLemmas
variable {V : Type}

theorem kreplace_cons_eq (a : K) (b v : V) (l : List (Sigma fun _ : K => V)) :
    List.kreplace a b (⟨a, v⟩ :: l) = ⟨a, b⟩ :: l := by
  unfold List.kreplace
  rw [List.lookmap_cons_some]
  simp

theorem kreplace_cons_ne {a k : K} (h : a ≠ k) (b v : V) (l : List (Sigma fun _ : K => V)) :
    List.kreplace a b (⟨k, v⟩ :: l) = ⟨k, v⟩ :: List.kreplace a b l := by
  unfold List.kreplace
  rw [List.lookmap_cons_none]
  simp [h]

theorem dlookup_kreplace_self (a : K) (b : V) (l : List (Sigma fun _ : K => V)) :
    List.dlookup a (List.kreplace a b l) = (List.dlookup a l).map (fun _ => b) := by
  induction l with
  | nil => rfl
  | cons hd tl ih =>
    obtain ⟨k, v⟩ := hd
    by_cases h : a = k
    · subst h
      rw [kreplace_cons_eq, List.dlookup_cons_eq, List.dlookup_cons_eq]
      rfl
    · rw [kreplace_cons_ne h, List.dlookup_cons_ne _ _ h, List.dlookup_cons_ne _ _ h, ih]

theorem dlookup_kreplace_ne {a a' : K} (h : a ≠ a') (b : V) (l : List (Sigma fun _ : K => V)) :
    List.dlookup a (List.kreplace a' b l) = List.dlookup a l := by
  induction l with
  | nil => rfl
  | cons hd tl ih =>
    obtain ⟨k, v⟩ := hd
    by_cases hk : a' = k
    · subst hk
      rw [kreplace_cons_eq, List.dlookup_cons_ne _ _ h, List.dlookup_cons_ne _ _ h]
    · rw [kreplace_cons_ne hk]
      by_cases hak : a = k
      · subst hak
        rw [List.dlookup_cons_eq, List.dlookup_cons_eq]
      · rw [List.dlookup_cons_ne _ _ hak, List.dlookup_cons_ne _ _ hak, ih]

theorem lookup_replace_self (a : K) (b : V) (s : AList fun _ : K => V) :
    (s.replace a b).lookup a = (s.lookup a).map (fun _ => b) :=
  dlookup_kreplace_self a b s.entries

theorem lookup_replace_ne {a a' : K} (h : a ≠ a') (b : V) (s : AList fun _ : K => V) :
    (s.replace a' b).lookup a = s.lookup a :=
  dlookup_kreplace_ne h b s.entries

theorem replace_eq_self {a : K} {b : V} {s : AList fun _ : K => V}
    (h : s.lookup a = some b) : s.replace a b = s := by
  apply AList.ext
  exact List.kreplace_self s.nodupKeys (AList.mem_lookup_iff.mp h)

end MapLemmas

/-- Within the int64 range the wrapped product is the product itself, so that
`now + wrapInt64 (Duration * Factor)` is `now + Duration * Factor` for every
`Duration` below about 29 years. -/
theorem wrapInt64_of_inRange (x : Int) (hlo : -2 ^ 63 ≤ x) (hhi : x < 2 ^ 63) :
    wrapInt64 x = x := by
  unfold wrapInt64
  norm_num at hlo hhi ⊢
  omega

/-! ## One call of `Increment`, path by path -/

theorem lookup_store_self (d : Defender K) (key : K) (c c' : GoDefender.Client K)
    (h : d.clients.lookup key = some c) : (d.store key c').clients.lookup key = some c' := by
  simp [Defender.store, lookup_replace_self, h]

theorem lookup_store_ne (d : Defender K) {k key : K} (hk : k ≠ key) (c' : GoDefender.Client K) :
    (d.store key c').clients.lookup k = d.clients.lookup k := by
  simp [Defender.store, lookup_replace_ne hk]

theorem store_eq_self (d : Defender K) (key : K) (c : GoDefender.Client K)
    (h : d.clients.lookup key = some c) : d.store key c = d := by
  cases d
  simp only [Defender.store] at h ⊢
  rw [replace_eq_self h]

theorem Increment_absent (d : Defender K) (key : K) (now wE wL : time.Time)
    (h : d.clients.lookup key = none) :
    d.Increment key now wE wL = some (false, { d with clients := d.clients.insert key (NewClient key (some d.newLimiter) (d.newValidClientExpiration now)) }) := by
  simp [Defender.Increment, h]

theorem Increment_blocked (d : Defender K) (key : K) (now wE wL : time.Time)
    (c : GoDefender.Client K) (h : d.clients.lookup key = some c) (hb : c.banned = true)
    (hne : c.Expired wE = false) :
    d.Increment key now wE wL = some (true, d) := by
  simp [Defender.Increment, h, Client.BanExpired, hb, hne, Client.Banned, store_eq_self d key c h]

theorem Increment_active (d : Defender K) (key : K) (now wE wL : time.Time)
    (c : GoDefender.Client K) (lim : rate.Limiter) (h : d.clients.lookup key = some c)
    (hb : c.banned = false ∨ c.Expired wE = true) (hl : c.limiter = some lim) :
    d.Increment key now wE wL =
      if (lim.AllowN wL 1).1 = true then
        some (false, d.store key
          { limiter := some (lim.AllowN wL 1).2, expiresAt := d.newValidClientExpiration now,
            banned := false, key := c.key })
      else
        some (true, d.store key
          { limiter := some (lim.AllowN wL 1).2, expiresAt := d.newBannedClientExpiration now,
            banned := true, key := c.key }) := by
  have hu : (if c.BanExpired wE = true then c.Unban else c).banned = false := by
    rcases hb with hb | he
    · simp [Client.BanExpired, hb]
    · cases hbn : c.banned <;> simp [Client.BanExpired, hbn, he, Client.Unban]
  have hlim : (if c.BanExpired wE = true then c.Unban else c).limiter = some lim := by
    split <;> simp [Client.Unban, hl]
  have hkey : (if c.BanExpired wE = true then c.Unban else c).key = c.key := by
    split <;> simp [Client.Unban]
  simp only [Defender.Increment, h, Client.Banned, hu, Client.ReachedLimit, Client.SetExpiration,
    hlim, Client.Ban, hkey]
  cases hr : (lim.AllowN wL 1).1 <;> simp [hr]

theorem Increment_nil (d : Defender K) (key : K) (now wE wL : time.Time)
    (c : GoDefender.Client K) (h : d.clients.lookup key = some c)
    (hb : c.banned = false ∨ c.Expired wE = true) (hl : c.limiter = none) :
    d.Increment key now wE wL = none := by
  have hu : (if c.BanExpired wE = true then c.Unban else c).banned = false := by
    rcases hb with hb | he
    · simp [Client.BanExpired, hb]
    · cases hbn : c.banned <;> simp [Client.BanExpired, hbn, he, Client.Unban]
  have hlim : (if c.BanExpired wE = true then c.Unban else c).limiter = none := by
    split <;> simp [Client.Unban, hl]
  simp [Defender.Increment, h, Client.Banned, hu, Client.ReachedLimit, Client.SetExpiration, hlim]

/-! ## The decision policy of `Increment` -/

/-- C1: for a key that is not tracked, `Increment` returns false and the new map
is the old map plus exactly one entry at `key`: not banned, expiring at
`now + Duration*Factor` (with `Factor = 10`, the product being the int64
product of the code), with a newly built limiter whose bucket is full. -/
theorem Increment_untracked_key (d : Defender K) (key : K) (now wallExpired wallLimit : time.Time)
    (h : d.clients.lookup key = none) :
    ∃ d', d.Increment key now wallExpired wallLimit = some (false, d') ∧
      d'.clients.lookup key = some
        { limiter := some (rate.NewLimiter (rate.Every d.Duration) d.Max),
          expiresAt := now + wrapInt64 (d.Duration * Factor), banned := false, key := key } ∧
      (rate.NewLimiter (rate.Every d.Duration) d.Max).tokens = d.Max ∧
      Factor = 10 ∧
      (∀ k, k ≠ key → d'.clients.lookup k = d.clients.lookup k) ∧
      d'.clients.keys = key :: d.clients.keys ∧
      d'.Duration = d.Duration ∧ d'.BanDuration = d.BanDuration ∧ d'.Max = d.Max := by
  refine ⟨_, Increment_absent d key now wallExpired wallLimit h, ?_, rfl, rfl, ?_, ?_, rfl, rfl, rfl⟩
  · simp [NewClient, Defender.newLimiter, Defender.newValidClientExpiration,
      Defender.newClientExpiration, time.Time.Add]
  · intro k hk
    simp [AList.lookup_insert_ne hk]
  · have hnot : key ∉ d.clients := AList.lookup_eq_none.mp h
    simp only [AList.keys_insert]
    rw [List.erase_of_not_mem (AList.mem_keys.not.mp hnot)]

theorem Increment_untracked_key_witness :
    exEmpty.clients.lookup "key1" = none ∧
    ∃ d', exEmpty.Increment "key1" exNow exNow exNow = some (false, d') ∧
      d'.clients.lookup "key1" = some
        { limiter := some (rate.NewLimiter (rate.Every exEmpty.Duration) exEmpty.Max),
          expiresAt := exNow + wrapInt64 (exEmpty.Duration * Factor), banned := false,
          key := "key1" } ∧
      (rate.NewLimiter (rate.Every exEmpty.Duration) exEmpty.Max).tokens = exEmpty.Max ∧
      Factor = 10 ∧
      (∀ k, k ≠ "key1" → d'.clients.lookup k = exEmpty.clients.lookup k) ∧
      d'.clients.keys = "key1" :: exEmpty.clients.keys ∧
      d'.Duration = exEmpty.Duration ∧ d'.BanDuration = exEmpty.BanDuration ∧
      d'.Max = exEmpty.Max :=
  ⟨by decide, Increment_untracked_key exEmpty "key1" exNow exNow exNow (by decide)⟩

/-- C2: for a tracked client that is banned and whose ban has not expired when
the call reads the clock, `Increment` returns true and the state of the
defender is exactly the state before the call. -/
theorem Increment_banned_unchanged (d : Defender K) (key : K)
    (now wallExpired wallLimit : time.Time) (c : Client K)
    (h : d.clients.lookup key = some c) (hb : c.banned = true)
    (hne : c.BanExpired wallExpired = false) :
    d.Increment key now wallExpired wallLimit = some (true, d) := by
  apply Increment_blocked d key now wallExpired wallLimit c h hb
  simpa [Client.BanExpired, hb] using hne

theorem Increment_banned_unchanged_witness :
    (exTracking (exClient true (exNow + exHour))).clients.lookup "key1"
        = some (exClient true (exNow + exHour)) ∧
    (exClient true (exNow + exHour)).banned = true ∧
    (exClient true (exNow + exHour)).BanExpired exNow = false ∧
    (exTracking (exClient true (exNow + exHour))).Increment "key1" exNow exNow exNow
        = some (true, exTracking (exClient true (exNow + exHour))) :=
  ⟨by decide, by decide, by decide,
    Increment_banned_unchanged (exTracking (exClient true (exNow + exHour))) "key1" exNow exNow
      exNow (exClient true (exNow + exHour)) (by decide) (by decide) (by decide)⟩

/-- C3: for a tracked client that is not banned, when the limiter denies the
event consumed by the call, `Increment` returns true and the client is then
banned with `expiresAt = now + BanDuration`; the other entries are untouched. -/
theorem Increment_limit_reached (d : Defender K) (key : K)
    (now wallExpired wallLimit : time.Time) (c : Client K) (lim : rate.Limiter)
    (h : d.clients.lookup key = some c) (hb : c.banned = false) (hl : c.limiter = some lim)
    (hdeny : (lim.AllowN wallLimit 1).1 = false) :
    ∃ d', d.Increment key now wallExpired wallLimit = some (true, d') ∧
      d'.clients.lookup key = some
        { limiter := some (lim.AllowN wallLimit 1).2, expiresAt := now + d.BanDuration,
          banned := true, key := c.key } ∧
      (∀ k, k ≠ key → d'.clients.lookup k = d.clients.lookup k) := by
  refine ⟨_, ?_, lookup_store_self d key c _ h, fun k hk => lookup_store_ne d hk _⟩
  rw [Increment_active d key now wallExpired wallLimit c lim h (Or.inl hb) hl]
  simp [hdeny, Defender.newBannedClientExpiration, Defender.newClientExpiration, time.Time.Add]

theorem Increment_limit_reached_witness :
    (exTracking (exSpentClient false (exNow + exHour))).clients.lookup "key1"
        = some (exSpentClient false (exNow + exHour)) ∧
    (exSpentClient false (exNow + exHour)).banned = false ∧
    (exSpentClient false (exNow + exHour)).limiter = some exSpentLimiter ∧
    (exSpentLimiter.AllowN exNow 1).1 = false ∧
    ∃ d', (exTracking (exSpentClient false (exNow + exHour))).Increment "key1" exNow exNow exNow
        = some (true, d') ∧
      d'.clients.lookup "key1" = some
        { limiter := some (exSpentLimiter.AllowN exNow 1).2,
          expiresAt := exNow + (exTracking (exSpentClient false (exNow + exHour))).BanDuration,
          banned := true, key := (exSpentClient false (exNow + exHour)).key } ∧
      (∀ k, k ≠ "key1" → d'.clients.lookup k
        = (exTracking (exSpentClient false (exNow + exHour))).clients.lookup k) :=
  have hdeny : (exSpentLimiter.AllowN exNow 1).1 = false := by
    norm_num [exSpentLimiter, rate.Limiter.AllowN, rate.Limiter.advance,
      rate.Limit.tokensFromDuration, time.Time.Before, time.Time.Sub]
  ⟨by decide, by decide, by decide, hdeny,
    Increment_limit_reached (exTracking (exSpentClient false (exNow + exHour))) "key1" exNow exNow
      exNow (exSpentClient false (exNow + exHour)) exSpentLimiter (by decide) (by decide)
      (by decide) hdeny⟩

/-- C4: for a tracked client that is not banned, when the limiter allows the
event consumed by the call, `Increment` returns false, the client stays
unbanned, its `expiresAt` becomes `now + Duration*Factor`, and its limiter is
the one left by a single `AllowN(_, 1)`: for a finite rate, the refilled
bucket minus exactly one token. The other entries are untouched. -/
theorem Increment_allowed (d : Defender K) (key : K)
    (now wallExpired wallLimit : time.Time) (c : Client K) (lim : rate.Limiter)
    (h : d.clients.lookup key = some c) (hb : c.banned = false) (hl : c.limiter = some lim)
    (hallow : (lim.AllowN wallLimit 1).1 = true) :
    ∃ d', d.Increment key now wallExpired wallLimit = some (false, d') ∧
      d'.clients.lookup key = some
        { limiter := some (lim.AllowN wallLimit 1).2,
          expiresAt := now + wrapInt64 (d.Duration * Factor), banned := false, key := c.key } ∧
      (lim.limit ≠ rate.Limit.inf →
        (lim.AllowN wallLimit 1).2
          = { lim with last := wallLimit, tokens := lim.advance wallLimit - 1 }) ∧
      (∀ k, k ≠ key → d'.clients.lookup k = d.clients.lookup k) := by
  refine ⟨_, ?_, lookup_store_self d key c _ h, ?_, fun k hk => lookup_store_ne d hk _⟩
  · rw [Increment_active d key now wallExpired wallLimit c lim h (Or.inl hb) hl]
    simp [hallow, Defender.newValidClientExpiration, Defender.newClientExpiration,
      time.Time.Add]
  · intro hfin
    unfold rate.Limiter.AllowN at hallow ⊢
    cases hlimit : lim.limit with
    | inf => exact absurd hlimit hfin
    | oneEvery iv =>
      simp only [hlimit] at hallow ⊢
      split at hallow
      · rename_i hok
        rw [if_pos hok]
        simp
      · simp at hallow

theorem Increment_allowed_witness :
    (exTracking (exClient false (exNow + exHour))).clients.lookup "key1"
        = some (exClient false (exNow + exHour)) ∧
    (exClient false (exNow + exHour)).banned = false ∧
    (exClient false (exNow + exHour)).limiter
        = some (rate.NewLimiter (rate.Every exMinute) 50) ∧
    ((rate.NewLimiter (rate.Every exMinute) 50).AllowN exNow 1).1 = true ∧
    ∃ d', (exTracking (exClient false (exNow + exHour))).Increment "key1" exNow exNow exNow
        = some (false, d') ∧
      d'.clients.lookup "key1" = some
        { limiter := some ((rate.NewLimiter (rate.Every exMinute) 50).AllowN exNow 1).2,
          expiresAt := exNow
            + wrapInt64 ((exTracking (exClient false (exNow + exHour))).Duration * Factor),
          banned := false, key := (exClient false (exNow + exHour)).key } ∧
      ((rate.NewLimiter (rate.Every exMinute) 50).limit ≠ rate.Limit.inf →
        ((rate.NewLimiter (rate.Every exMinute) 50).AllowN exNow 1).2
          = { rate.NewLimiter (rate.Every exMinute) 50 with
              last := exNow,
              tokens := (rate.NewLimiter (rate.Every exMinute) 50).advance exNow - 1 }) ∧
      (∀ k, k ≠ "key1" → d'.clients.lookup k
        = (exTracking (exClient false (exNow + exHour))).clients.lookup k) :=
  have hallow : ((rate.NewLimiter (rate.Every exMinute) 50).AllowN exNow 1).1 = true := by
    norm_num [rate.NewLimiter, rate.Every, exMinute, rate.Limiter.AllowN, rate.Limiter.advance,
      rate.Limit.tokensFromDuration, time.Time.Before, time.Time.Sub, exNow]
  ⟨by decide, by decide, by decide, hallow,
    Increment_allowed (exTracking (exClient false (exNow + exHour))) "key1" exNow exNow
      exNow (exClient false (exNow + exHour)) (rate.NewLimiter (rate.Every exMinute) 50)
      (by decide) (by decide) (by decide) hallow⟩

/-- C5 (as stated, refuted): a banned client whose `expiresAt` is before the
argument `now` but not before the wall clock stays banned. Here the ban ends
at `exNow + exHour`, the argument is `exNow + 2 * exHour`, the clock reads
`exNow` and the limiter would allow the event; the call returns true and
changes nothing, where the claim has it return false with the ban cleared. -/
theorem Increment_ban_expiry_counterexample :
    (exTracking (exClient true (exNow + exHour))).clients.lookup "key1"
        = some (exClient true (exNow + exHour)) ∧
    (exClient true (exNow + exHour)).banned = true ∧
    (exClient true (exNow + exHour)).expiresAt < exNow + 2 * exHour ∧
    ((rate.NewLimiter (rate.Every exMinute) 50).AllowN exNow 1).1 = true ∧
    (exTracking (exClient true (exNow + exHour))).Increment "key1" (exNow + 2 * exHour)
        exNow exNow = some (true, exTracking (exClient true (exNow + exHour))) ∧
    ¬ ∃ d', (exTracking (exClient true (exNow + exHour))).Increment "key1"
        (exNow + 2 * exHour) exNow exNow = some (false, d') := by
  have hrun : (exTracking (exClient true (exNow + exHour))).Increment "key1"
      (exNow + 2 * exHour) exNow exNow
        = some (true, exTracking (exClient true (exNow + exHour))) :=
    Increment_blocked _ "key1" _ exNow exNow (exClient true (exNow + exHour)) (by decide)
      (by decide) (by decide)
  refine ⟨by decide, by decide, by decide, ?_, hrun, ?_⟩
  · norm_num [rate.NewLimiter, rate.Every, exMinute, rate.Limiter.AllowN, rate.Limiter.advance,
      rate.Limit.tokensFromDuration, time.Time.Before, time.Time.Sub, exNow]
  · rintro ⟨d', hd'⟩
    rw [hrun] at hd'
    simp at hd'

/-- C5 (amended): for a tracked client with `banned = true`, when the wall clock
read by the call is strictly after the client's `expiresAt`, the ban is found
expired and cleared, and the limiter is evaluated in the same call: if it allows, the call returns
false with `banned = false` and `expiresAt = now + Duration*Factor`; if it
denies, the call returns true with `banned = true` and
`expiresAt = now + BanDuration`. -/
theorem Increment_ban_expired (d : Defender K) (key : K)
    (now wallExpired wallLimit : time.Time) (c : Client K) (lim : rate.Limiter)
    (h : d.clients.lookup key = some c) (hb : c.banned = true)
    (hexp : c.expiresAt < wallExpired) (hl : c.limiter = some lim) :
    c.BanExpired wallExpired = true ∧
    ((lim.AllowN wallLimit 1).1 = true →
      ∃ d', d.Increment key now wallExpired wallLimit = some (false, d') ∧
        d'.clients.lookup key = some
          { limiter := some (lim.AllowN wallLimit 1).2,
            expiresAt := now + wrapInt64 (d.Duration * Factor), banned := false,
            key := c.key }) ∧
    ((lim.AllowN wallLimit 1).1 = false →
      ∃ d', d.Increment key now wallExpired wallLimit = some (true, d') ∧
        d'.clients.lookup key = some
          { limiter := some (lim.AllowN wallLimit 1).2, expiresAt := now + d.BanDuration,
            banned := true, key := c.key }) := by
  have he : c.Expired wallExpired = true := by simp [Client.Expired, time.Time.After, hexp]
  have hrun := Increment_active d key now wallExpired wallLimit c lim h (Or.inr he) hl
  refine ⟨by simp [Client.BanExpired, hb, he], ?_, ?_⟩
  · intro hallow
    refine ⟨_, ?_, lookup_store_self d key c _ h⟩
    rw [hrun]
    simp [hallow, Defender.newValidClientExpiration, Defender.newClientExpiration,
      time.Time.Add]
  · intro hdeny
    refine ⟨_, ?_, lookup_store_self d key c _ h⟩
    rw [hrun]
    simp [hdeny, Defender.newBannedClientExpiration, Defender.newClientExpiration,
      time.Time.Add]

theorem Increment_ban_expired_witness :
    (exTracking (exClient true (exNow - exHour))).clients.lookup "key1"
        = some (exClient true (exNow - exHour)) ∧
    (exClient true (exNow - exHour)).banned = true ∧
    (exClient true (exNow - exHour)).expiresAt < exNow ∧
    (exClient true (exNow - exHour)).limiter
        = some (rate.NewLimiter (rate.Every exMinute) 50) ∧
    ((rate.NewLimiter (rate.Every exMinute) 50).AllowN exNow 1).1 = true ∧
    ∃ d', (exTracking (exClient true (exNow - exHour))).Increment "key1" exNow exNow exNow
        = some (false, d') ∧
      d'.clients.lookup "key1" = some
        { limiter := some ((rate.NewLimiter (rate.Every exMinute) 50).AllowN exNow 1).2,
          expiresAt := exNow
            + wrapInt64 ((exTracking (exClient true (exNow - exHour))).Duration * Factor),
          banned := false, key := (exClient true (exNow - exHour)).key } :=
  have hallow : ((rate.NewLimiter (rate.Every exMinute) 50).AllowN exNow 1).1 = true := by
    norm_num [rate.NewLimiter, rate.Every, exMinute, rate.Limiter.AllowN, rate.Limiter.advance,
      rate.Limit.tokensFromDuration, time.Time.Before, time.Time.Sub, exNow]
  ⟨by decide, by decide, by decide, by decide, hallow,
    (Increment_ban_expired (exTracking (exClient true (exNow - exHour))) "key1" exNow exNow
      exNow (exClient true (exNow - exHour)) (rate.NewLimiter (rate.Every exMinute) 50)
      (by decide) (by decide) (by decide) (by decide)).2.1 hallow⟩

/-- C9: `Increment` returns true exactly when the entry for `key` is banned in
the state after the call, and that entry always exists. The call returns a
result on every state in which the entry for `key`, if there is one, has a
limiter (on a nil limiter the code panics and returns nothing). -/
theorem Increment_true_iff_banned (d : Defender K) (key : K)
    (now wallExpired wallLimit : time.Time) :
    ((∀ c, d.clients.lookup key = some c → c.limiter ≠ none) →
      ∃ r, d.Increment key now wallExpired wallLimit = some r) ∧
    (∀ b d', d.Increment key now wallExpired wallLimit = some (b, d') →
      ∃ c, d'.clients.lookup key = some c ∧ (b = true ↔ c.banned = true)) := by
  cases h : d.clients.lookup key with
  | none =>
    rw [Increment_absent d key now wallExpired wallLimit h]
    refine ⟨fun _ => ⟨_, rfl⟩, ?_⟩
    intro b d' hr
    simp only [Option.some.injEq, Prod.mk.injEq] at hr
    obtain ⟨hb, hd⟩ := hr
    subst hb hd
    exact ⟨_, AList.lookup_insert _, by simp [NewClient]⟩
  | some c =>
    by_cases hblocked : c.banned = true ∧ c.Expired wallExpired = false
    · rw [Increment_blocked d key now wallExpired wallLimit c h hblocked.1 hblocked.2]
      refine ⟨fun _ => ⟨_, rfl⟩, ?_⟩
      intro b d' hr
      simp only [Option.some.injEq, Prod.mk.injEq] at hr
      obtain ⟨hb, hd⟩ := hr
      subst hb hd
      exact ⟨c, h, by simp [hblocked.1]⟩
    · have hact : c.banned = false ∨ c.Expired wallExpired = true := by
        cases hbn : c.banned <;> cases hex : c.Expired wallExpired <;> simp_all
      cases hl : c.limiter with
      | none =>
        rw [Increment_nil d key now wallExpired wallLimit c h hact hl]
        refine ⟨fun hlim => absurd hl (hlim c rfl), ?_⟩
        intro b d' hr
        simp at hr
      | some lim =>
        rw [Increment_active d key now wallExpired wallLimit c lim h hact hl]
        cases hr : (lim.AllowN wallLimit 1).1
        · refine ⟨fun _ => ⟨_, rfl⟩, ?_⟩
          intro b d' hbd
          simp only [Bool.false_eq_true, if_false, Option.some.injEq, Prod.mk.injEq] at hbd
          obtain ⟨hb, hd⟩ := hbd
          subst hb hd
          exact ⟨_, lookup_store_self d key c _ h, by simp⟩
        · refine ⟨fun _ => ⟨_, rfl⟩, ?_⟩
          intro b d' hbd
          simp only [if_true, Option.some.injEq, Prod.mk.injEq] at hbd
          obtain ⟨hb, hd⟩ := hbd
          subst hb hd
          exact ⟨_, lookup_store_self d key c _ h, by simp⟩

theorem Increment_true_iff_banned_witness :
    (∀ c, (exTracking (exSpentClient false (exNow + exHour))).clients.lookup "key1" = some c →
      c.limiter ≠ none) ∧
    ∃ r, (exTracking (exSpentClient false (exNow + exHour))).Increment "key1" exNow exNow exNow
      = some r :=
  have hlim : ∀ c, (exTracking (exSpentClient false (exNow + exHour))).clients.lookup "key1"
      = some c → c.limiter ≠ none := by
    intro c hc
    have hc' : exSpentClient false (exNow + exHour) = c := by
      simpa [exTracking, AList.lookup, AList.singleton] using hc
    subst hc'
    simp [exSpentClient]
  ⟨hlim, (Increment_true_iff_banned (exTracking (exSpentClient false (exNow + exHour))) "key1"
    exNow exNow exNow).1 hlim⟩

/-! ## `Cleanup` -/

/-- The loop of `Cleanup` over a list of entries: an entry for `k` remains
unless the loop meets an expired entry stored under `k`. -/
theorem lookup_cleanup_loop (wall : K → time.Time) (k : K)
    (es : List (Sigma fun _ : K => Client K)) (m : AList fun _ : K => Client K) :
    (es.foldl (fun m e => if e.2.Expired (wall e.1) then m.erase e.1 else m) m).lookup k
      = if (∃ e ∈ es, e.1 = k ∧ e.2.Expired (wall e.1) = true) then none else m.lookup k := by
  induction es generalizing m with
  | nil => simp
  | cons e es ih =>
    rw [List.foldl_cons, ih]
    by_cases htl : ∃ e' ∈ es, e'.1 = k ∧ e'.2.Expired (wall e'.1) = true
    · have hall : ∃ e' ∈ e :: es, e'.1 = k ∧ e'.2.Expired (wall e'.1) = true := by
        obtain ⟨e', he', hp⟩ := htl
        exact ⟨e', List.mem_cons_of_mem _ he', hp⟩
      rw [if_pos htl, if_pos hall]
    · rw [if_neg htl]
      by_cases hhd : e.1 = k ∧ e.2.Expired (wall e.1) = true
      · have hall : ∃ e' ∈ e :: es, e'.1 = k ∧ e'.2.Expired (wall e'.1) = true :=
          ⟨e, List.mem_cons_self _ _, hhd⟩
        rw [if_pos hall, if_pos hhd.2, ← hhd.1, AList.lookup_erase]
      · have hall : ¬ ∃ e' ∈ e :: es, e'.1 = k ∧ e'.2.Expired (wall e'.1) = true := by
          rintro ⟨e', he', hp⟩
          rcases List.mem_cons.mp he' with rfl | hmem
          · exact hhd hp
          · exact htl ⟨e', hmem, hp⟩
        rw [if_neg hall]
        by_cases hex : e.2.Expired (wall e.1) = true
        · rw [if_pos hex]
          have hne : k ≠ e.1 := fun hk => hhd ⟨hk.symm, hex⟩
          exact AList.lookup_erase_ne hne
        · rw [if_neg hex]

theorem lookup_Cleanup (d : Defender K) (wall : K → time.Time) (k : K) (c : Client K) :
    (d.Cleanup wall).clients.lookup k = some c
      ↔ d.clients.lookup k = some c ∧ c.Expired (wall k) = false := by
  simp only [Defender.Cleanup]
  rw [lookup_cleanup_loop wall k d.clients.entries d.clients]
  constructor
  · intro hc
    split at hc
    · simp at hc
    · rename_i hno
      refine ⟨hc, ?_⟩
      cases hex : c.Expired (wall k)
      · rfl
      · exact absurd ⟨⟨k, c⟩, AList.mem_lookup_iff.mp hc, rfl, hex⟩ hno
  · rintro ⟨hc, hex⟩
    have hno : ¬ ∃ e ∈ d.clients.entries, e.1 = k ∧ e.2.Expired (wall e.1) = true := by
      rintro ⟨⟨k', c'⟩, hmem, hk, hexp⟩
      simp only at hk hexp
      subst hk
      have hc' : d.clients.lookup k' = some c' := AList.mem_lookup_iff.mpr hmem
      rw [hc] at hc'
      simp only [Option.some.injEq] at hc'
      subst hc'
      rw [hex] at hexp
      simp at hexp
    rw [if_neg hno]
    exact hc

/-- C10: after `Cleanup()` run at time `t`, the map holds exactly the entries of
the old map that are not expired at `t` (not `t > expiresAt`), each under its
key and unmodified; every expired entry is gone, banned or not. The settings
of the defender are unchanged. -/
theorem Cleanup_removes_exactly_expired (d : Defender K) (t : time.Time) :
    (∀ k c, (d.Cleanup (fun _ => t)).clients.lookup k = some c
      ↔ d.clients.lookup k = some c ∧ ¬ (c.expiresAt < t)) ∧
    (∀ k c, d.clients.lookup k = some c → c.expiresAt < t →
      (d.Cleanup (fun _ => t)).clients.lookup k = none) ∧
    (d.Cleanup (fun _ => t)).Duration = d.Duration ∧
    (d.Cleanup (fun _ => t)).BanDuration = d.BanDuration ∧
    (d.Cleanup (fun _ => t)).Max = d.Max := by
  have hiff : ∀ k c, (d.Cleanup (fun _ => t)).clients.lookup k = some c
      ↔ d.clients.lookup k = some c ∧ ¬ (c.expiresAt < t) := by
    intro k c
    rw [lookup_Cleanup]
    simp [Client.Expired, time.Time.After]
  refine ⟨hiff, ?_, rfl, rfl, rfl⟩
  intro k c hc hexp
  cases hr : (d.Cleanup (fun _ => t)).clients.lookup k with
  | none => rfl
  | some c' =>
    have h2 := (hiff k c').mp hr
    rw [hc] at h2
    simp only [Option.some.injEq] at h2
    obtain ⟨he, hn⟩ := h2
    subst he
    exact absurd hexp hn

/-! ## The token bucket -/

theorem AllowN_inf (lim : rate.Limiter) (t : time.Time) (n : Int)
    (h : lim.limit = rate.Limit.inf) : lim.AllowN t n = (true, lim) := by
  simp [rate.Limiter.AllowN, h]

theorem AllowN_oneEvery (lim : rate.Limiter) (t : time.Time) (iv : time.Duration)
    (h : lim.limit = rate.Limit.oneEvery iv) :
    lim.AllowN t 1 =
      if 1 ≤ lim.burst ∧ (1 : ℚ) ≤ lim.advance t then
        (true, { lim with last := t, tokens := lim.advance t - 1 })
      else (false, lim) := by
  simp [rate.Limiter.AllowN, h]

/-- The time for which the bucket is refilled at `t`: never negative, and the
time since `last` when `t` is not before it. -/
theorem elapsed_cases (lim : rate.Limiter) (t : time.Time) :
    (0 : Int) ≤ t.Sub (if t.Before lim.last then t else lim.last) ∧
    (lim.last ≤ t → t.Sub (if t.Before lim.last then t else lim.last) = t - lim.last) := by
  by_cases hlt : t < lim.last
  · have hb : t.Before lim.last = true := by simp [time.Time.Before, hlt]
    simp only [hb, if_true, time.Time.Sub]
    constructor
    · simp
    · intro hle
      exact absurd hlt (not_lt.mpr hle)
  · have hb : t.Before lim.last = false := by simp [time.Time.Before, hlt]
    have hle : lim.last ≤ t := not_lt.mp hlt
    simp only [hb, time.Time.Sub]
    constructor
    · simpa using hle
    · intro _
      simp

theorem advance_eq_min (lim : rate.Limiter) (t : time.Time) :
    lim.advance t = min (lim.burst : ℚ)
      (lim.tokens
        + lim.limit.tokensFromDuration (t.Sub (if t.Before lim.last then t else lim.last))) := by
  unfold rate.Limiter.advance
  simp only
  by_cases h : (lim.burst : ℚ)
      < lim.tokens
        + lim.limit.tokensFromDuration (t.Sub (if t.Before lim.last then t else lim.last))
  · rw [if_pos h, min_eq_left h.le]
  · rw [if_neg h, min_eq_right (not_lt.mp h)]

theorem advance_le_burst (lim : rate.Limiter) (t : time.Time) :
    lim.advance t ≤ (lim.burst : ℚ) := by
  rw [advance_eq_min]
  exact min_le_left _ _

theorem advance_ge (lim : rate.Limiter) (t : time.Time) (iv : time.Duration) (x : ℚ)
    (h : lim.limit = rate.Limit.oneEvery iv) (hiv : 0 < iv)
    (hb : x ≤ (lim.burst : ℚ)) (ht : x ≤ lim.tokens) : x ≤ lim.advance t := by
  rw [advance_eq_min, h]
  apply le_min hb
  have h0 := (elapsed_cases lim t).1
  have hq : (0 : ℚ) ≤ ((t.Sub (if t.Before lim.last then t else lim.last) : Int) : ℚ) := by
    exact_mod_cast h0
  have hivq : (0 : ℚ) < (iv : ℚ) := by exact_mod_cast hiv
  have hr : (0 : ℚ)
      ≤ ((t.Sub (if t.Before lim.last then t else lim.last) : Int) : ℚ) / (iv : ℚ) :=
    div_nonneg hq hivq.le
  simp only [rate.Limit.tokensFromDuration]
  linarith

theorem advance_le (lim : rate.Limiter) (t : time.Time) (iv : time.Duration)
    (h : lim.limit = rate.Limit.oneEvery iv) (hle : lim.last ≤ t) :
    lim.advance t ≤ lim.tokens + ((t - lim.last : Int) : ℚ) / (iv : ℚ) := by
  rw [advance_eq_min, h, (elapsed_cases lim t).2 hle]
  exact min_le_right _ _

/-! ## Sequences of calls for one key -/

theorem run_cons_of (d d' : Defender K) (key : K) (call : Call) (cs : List Call) (b : Bool)
    (h : d.Increment key call.now call.wallExpired call.wallLimit = some (b, d')) :
    d.run key (call :: cs) = (d'.run key cs).map (fun q => (b :: q.1, q.2)) := by
  simp only [Defender.run, h]
  cases d'.run key cs <;> rfl

/-- While fewer than `M` tokens have been taken from a bucket of burst `M`, one
more event is allowed, whatever the time. -/
theorem AllowN_within_burst (lim : rate.Limiter) (t : time.Time) (M : Int) (j : Nat)
    (hburst : lim.burst = M)
    (hlim : lim.limit = rate.Limit.inf ∨
      ∃ iv, 0 < iv ∧ lim.limit = rate.Limit.oneEvery iv ∧ (M : ℚ) - (j : ℚ) ≤ lim.tokens)
    (hj : (j : Int) + 1 ≤ M) :
    (lim.AllowN t 1).1 = true ∧ (lim.AllowN t 1).2.burst = M ∧
    ((lim.AllowN t 1).2.limit = rate.Limit.inf ∨
      ∃ iv, 0 < iv ∧ (lim.AllowN t 1).2.limit = rate.Limit.oneEvery iv ∧
        (M : ℚ) - ((j + 1 : Nat) : ℚ) ≤ (lim.AllowN t 1).2.tokens) := by
  rcases hlim with hinf | ⟨iv, hiv, hfin, htok⟩
  · rw [AllowN_inf lim t 1 hinf]
    exact ⟨rfl, hburst, Or.inl hinf⟩
  · have hjq : ((j : Int) : ℚ) + 1 ≤ (M : ℚ) := by exact_mod_cast hj
    have hjq' : (j : ℚ) + 1 ≤ (M : ℚ) := by simpa using hjq
    have h0 : (0 : ℚ) ≤ (j : ℚ) := Nat.cast_nonneg j
    have hadv : (M : ℚ) - (j : ℚ) ≤ lim.advance t :=
      advance_ge lim t iv _ hfin hiv (by rw [hburst]; linarith) htok
    have hok : 1 ≤ lim.burst ∧ (1 : ℚ) ≤ lim.advance t := by
      constructor
      · rw [hburst]; omega
      · linarith
    rw [AllowN_oneEvery lim t iv hfin, if_pos hok]
    refine ⟨rfl, hburst, Or.inr ⟨iv, hiv, hfin, ?_⟩⟩
    simp only [Nat.cast_add, Nat.cast_one]
    linarith

theorem run_within_burst (key : K) (M : Int) :
    ∀ (calls : List Call) (d : Defender K) (c : Client K) (lim : rate.Limiter) (j : Nat),
      d.Max = M → d.clients.lookup key = some c → c.banned = false →
      c.limiter = some lim → lim.burst = M →
      (lim.limit = rate.Limit.inf ∨
        ∃ iv, 0 < iv ∧ lim.limit = rate.Limit.oneEvery iv ∧ (M : ℚ) - (j : ℚ) ≤ lim.tokens) →
      (j : Int) + (calls.length : Int) ≤ M →
      ∃ d' c', d.run key calls = some (List.replicate calls.length false, d') ∧
        d'.clients.lookup key = some c' ∧ c'.banned = false := by
  intro calls
  induction calls with
  | nil =>
    intro d c lim j _ hc hb _ _ _ _
    exact ⟨d, c, rfl, hc, hb⟩
  | cons call rest ih =>
    intro d c lim j hM hc hb hl hburst hlim hlen
    have hlen' : (j : Int) + 1 + (rest.length : Int) ≤ M := by
      simp only [List.length_cons, Nat.cast_add, Nat.cast_one] at hlen
      omega
    have hj : (j : Int) + 1 ≤ M := by omega
    obtain ⟨hallow, hburst', hlim'⟩ := AllowN_within_burst lim call.wallLimit M j hburst hlim hj
    have hstep := Increment_active d key call.now call.wallExpired call.wallLimit c lim hc
      (Or.inl hb) hl
    rw [if_pos hallow] at hstep
    obtain ⟨d', c', hrun, hc', hb'⟩ := ih
      (d.store key
        { limiter := some (lim.AllowN call.wallLimit 1).2,
          expiresAt := d.newValidClientExpiration call.now, banned := false, key := c.key })
      _ (lim.AllowN call.wallLimit 1).2 (j + 1) hM
      (lookup_store_self d key c _ hc) rfl rfl hburst' hlim'
      (by simp only [Nat.cast_add, Nat.cast_one]; omega)
    refine ⟨d', c', ?_, hc', hb'⟩
    rw [run_cons_of d _ key call rest false hstep, hrun]
    rfl

/-- The first sighting takes no token: from an untracked key, `Max + 1`
calls or fewer all return false and leave the client unbanned. -/
theorem run_untracked (d : Defender K) (key : K) (calls : List Call)
    (hkey : d.clients.lookup key = none) (hn : (calls.length : Int) ≤ d.Max + 1) :
    ∃ d', d.run key calls = some (List.replicate calls.length false, d') ∧
      (calls ≠ [] → ∃ c, d'.clients.lookup key = some c ∧ c.banned = false) := by
  cases calls with
  | nil => exact ⟨d, rfl, fun h => absurd rfl h⟩
  | cons call rest =>
    have hfirst := Increment_absent d key call.now call.wallExpired call.wallLimit hkey
    have hlen : ((0 : Nat) : Int) + (rest.length : Int) ≤ d.Max := by
      simp only [List.length_cons, Nat.cast_add, Nat.cast_one] at hn
      simp only [Nat.cast_zero]
      omega
    have hlim : d.newLimiter.limit = rate.Limit.inf ∨
        ∃ iv, 0 < iv ∧ d.newLimiter.limit = rate.Limit.oneEvery iv ∧
          (d.Max : ℚ) - ((0 : Nat) : ℚ) ≤ d.newLimiter.tokens := by
      by_cases hD : d.Duration ≤ 0
      · left
        simp [Defender.newLimiter, rate.NewLimiter, rate.Every, hD]
      · right
        refine ⟨d.Duration, not_le.mp hD, ?_, ?_⟩
        · simp [Defender.newLimiter, rate.NewLimiter, rate.Every, hD]
        · simp [Defender.newLimiter, rate.NewLimiter]
    obtain ⟨d', c', hrun, hc', hb'⟩ := run_within_burst key d.Max rest
      { d with clients := d.clients.insert key (NewClient key (some d.newLimiter) (d.newValidClientExpiration call.now)) }
      (NewClient key (some d.newLimiter) (d.newValidClientExpiration call.now)) d.newLimiter 0
      rfl (AList.lookup_insert _) rfl rfl rfl hlim hlen
    refine ⟨d', ?_, fun _ => ⟨c', hc', hb'⟩⟩
    rw [run_cons_of d _ key call rest false hfirst, hrun]
    rfl

/-- C7: from a key that is not tracked, every sequence of at most `Max` calls
of `Increment` for that key returns false on every call and leaves the client
unbanned after each call (the state after the first `m` calls is given for
every `m`). This holds whatever the times of the calls. -/
theorem Increment_within_quota (d : Defender K) (key : K) (calls : List Call)
    (hkey : d.clients.lookup key = none) (hn : (calls.length : Int) ≤ d.Max) :
    ∀ m, m ≤ calls.length →
      ∃ dm, d.run key (calls.take m) = some (List.replicate m false, dm) ∧
        (1 ≤ m → ∃ c, dm.clients.lookup key = some c ∧ c.banned = false) := by
  intro m hm
  have hlen : (calls.take m).length = m := by simp [List.length_take, hm]
  have hle : (((calls.take m).length : Nat) : Int) ≤ d.Max + 1 := by
    rw [hlen]
    have : (m : Int) ≤ (calls.length : Int) := by exact_mod_cast hm
    omega
  obtain ⟨dm, hrun, hc⟩ := run_untracked d key (calls.take m) hkey hle
  rw [hlen] at hrun
  refine ⟨dm, hrun, fun h1 => hc ?_⟩
  intro hnil
  rw [hnil] at hlen
  simp at hlen
  omega

theorem Increment_within_quota_witness :
    exEmpty.clients.lookup "key1" = none ∧
    (([Call.atTime exNow, Call.atTime (exNow + exMilli)].length : Nat) : Int) ≤ exEmpty.Max ∧
    ∃ dm, exEmpty.run "key1" ([Call.atTime exNow, Call.atTime (exNow + exMilli)].take 2)
        = some (List.replicate 2 false, dm) ∧
      (1 ≤ 2 → ∃ c, dm.clients.lookup "key1" = some c ∧ c.banned = false) :=
  ⟨by decide, by decide,
    Increment_within_quota exEmpty "key1" [Call.atTime exNow, Call.atTime (exNow + exMilli)]
      (by decide) (by decide) 2 (by decide)⟩

/-- A bucket of burst `M` from which `j` tokens were taken since `w1`, at
non-decreasing times: while `j < M` one more event is allowed. -/
theorem AllowN_consume_bounds (lim : rate.Limiter) (t w1 : time.Time) (D : time.Duration)
    (M : Int) (j : Nat) (hburst : lim.burst = M) (hlimit : lim.limit = rate.Limit.oneEvery D)
    (hD : 0 < D) (hlo : (M : ℚ) - (j : ℚ) ≤ lim.tokens)
    (hhi : lim.tokens ≤ (M : ℚ) - (j : ℚ) + ((lim.last - w1 : Int) : ℚ) / (D : ℚ))
    (hle : lim.last ≤ t) (hj : (j : Int) + 1 ≤ M) :
    lim.AllowN t 1 = (true, { lim with last := t, tokens := lim.advance t - 1 }) ∧
    (M : ℚ) - ((j + 1 : Nat) : ℚ) ≤ lim.advance t - 1 ∧
    lim.advance t - 1 ≤ (M : ℚ) - ((j + 1 : Nat) : ℚ) + ((t - w1 : Int) : ℚ) / (D : ℚ) := by
  have hjq : ((j : Int) : ℚ) + 1 ≤ (M : ℚ) := by exact_mod_cast hj
  have hjq' : (j : ℚ) + 1 ≤ (M : ℚ) := by simpa using hjq
  have h0 : (0 : ℚ) ≤ (j : ℚ) := Nat.cast_nonneg j
  have hadv : (M : ℚ) - (j : ℚ) ≤ lim.advance t :=
    advance_ge lim t D _ hlimit hD (by rw [hburst]; linarith) hlo
  have hup := advance_le lim t D hlimit hle
  have hok : 1 ≤ lim.burst ∧ (1 : ℚ) ≤ lim.advance t := by
    constructor
    · rw [hburst]; omega
    · linarith
  have hsplit : ((t - w1 : Int) : ℚ) / (D : ℚ)
      = ((lim.last - w1 : Int) : ℚ) / (D : ℚ) + ((t - lim.last : Int) : ℚ) / (D : ℚ) := by
    push_cast
    ring
  refine ⟨?_, ?_, ?_⟩
  · rw [AllowN_oneEvery lim t D hlimit, if_pos hok]
  · simp only [Nat.cast_add, Nat.cast_one]
    linarith
  · simp only [Nat.cast_add, Nat.cast_one]
    rw [hsplit]
    linarith

/-- Once `M` tokens were taken since `w1`, an event less than one interval
after `w1` is denied. -/
theorem AllowN_exhausted (lim : rate.Limiter) (t w1 : time.Time) (D : time.Duration)
    (hlimit : lim.limit = rate.Limit.oneEvery D) (hD : 0 < D)
    (hhi : lim.tokens ≤ ((lim.last - w1 : Int) : ℚ) / (D : ℚ))
    (hle : lim.last ≤ t) (hwin : t < w1 + D) :
    lim.AllowN t 1 = (false, lim) := by
  have hup := advance_le lim t D hlimit hle
  have hDq : (0 : ℚ) < (D : ℚ) := by exact_mod_cast hD
  have hsplit : ((t - w1 : Int) : ℚ) / (D : ℚ)
      = ((lim.last - w1 : Int) : ℚ) / (D : ℚ) + ((t - lim.last : Int) : ℚ) / (D : ℚ) := by
    push_cast
    ring
  have hlt : ((t - w1 : Int) : ℚ) / (D : ℚ) < 1 := by
    rw [div_lt_one hDq]
    have : t - w1 < D := sub_lt_iff_lt_add'.mpr hwin
    exact_mod_cast this
  have hno : ¬ (1 ≤ lim.burst ∧ (1 : ℚ) ≤ lim.advance t) := by
    rintro ⟨_, h1⟩
    linarith
  rw [AllowN_oneEvery lim t D hlimit, if_neg hno]

theorem run_until_denied (key : K) (M : Int) (D : time.Duration) (w1 : time.Time)
    (final : Call) (hD : 0 < D) (hwin : final.wallLimit < w1 + D) :
    ∀ (calls : List Call) (d : Defender K) (c : Client K) (lim : rate.Limiter) (j : Nat),
      d.Max = M → d.clients.lookup key = some c → c.banned = false →
      c.limiter = some lim → lim.burst = M → lim.limit = rate.Limit.oneEvery D →
      (M : ℚ) - (j : ℚ) ≤ lim.tokens →
      lim.tokens ≤ (M : ℚ) - (j : ℚ) + ((lim.last - w1 : Int) : ℚ) / (D : ℚ) →
      List.Chain (· ≤ ·) lim.last ((calls ++ [final]).map Call.wallLimit) →
      (j : Int) + (calls.length : Int) = M →
      ∃ d' c', d.run key (calls ++ [final])
          = some (List.replicate calls.length false ++ [true], d') ∧
        d'.clients.lookup key = some c' ∧ c'.banned = true ∧
        c'.expiresAt = final.now + d.BanDuration := by
  intro calls
  induction calls with
  | nil =>
    intro d c lim j hM hc hb hl _ hlimit _ hhi hchain hlen
    have hle : lim.last ≤ final.wallLimit := by
      simpa using hchain
    have hjM : (M : ℚ) - (j : ℚ) = 0 := by
      have : (j : Int) = M := by simpa using hlen
      rw [← this]
      simp
    rw [hjM, zero_add] at hhi
    have hdeny := AllowN_exhausted lim final.wallLimit w1 D hlimit hD hhi hle hwin
    have hstep := Increment_active d key final.now final.wallExpired final.wallLimit c lim hc
      (Or.inl hb) hl
    rw [hdeny] at hstep
    simp only [Bool.false_eq_true, if_false] at hstep
    refine ⟨d.store key
        { limiter := some lim, expiresAt := d.newBannedClientExpiration final.now,
          banned := true, key := c.key },
      { limiter := some lim, expiresAt := d.newBannedClientExpiration final.now,
        banned := true, key := c.key }, ?_, lookup_store_self d key c _ hc, rfl, ?_⟩
    · rw [List.nil_append, run_cons_of d _ key final [] true hstep]
      rfl
    · simp [Defender.newBannedClientExpiration, Defender.newClientExpiration, time.Time.Add]
  | cons call rest ih =>
    intro d c lim j hM hc hb hl hburst hlimit hlo hhi hchain hlen
    have hchain' : lim.last ≤ call.wallLimit ∧
        List.Chain (· ≤ ·) call.wallLimit ((rest ++ [final]).map Call.wallLimit) := by
      simpa using hchain
    have hj : (j : Int) + 1 ≤ M := by
      simp only [List.length_cons, Nat.cast_add, Nat.cast_one] at hlen
      omega
    obtain ⟨hallow, hlo', hhi'⟩ := AllowN_consume_bounds lim call.wallLimit w1 D M j hburst
      hlimit hD hlo hhi hchain'.1 hj
    have hstep := Increment_active d key call.now call.wallExpired call.wallLimit c lim hc
      (Or.inl hb) hl
    rw [hallow] at hstep
    simp only [if_true] at hstep
    obtain ⟨d', c', hrun, hc', hb', hexp⟩ := ih
      (d.store key
        { limiter := some { lim with last := call.wallLimit,
                                     tokens := lim.advance call.wallLimit - 1 },
          expiresAt := d.newValidClientExpiration call.now, banned := false, key := c.key })
      _ { lim with last := call.wallLimit, tokens := lim.advance call.wallLimit - 1 } (j + 1)
      hM (lookup_store_self d key c _ hc) rfl rfl hburst hlimit hlo' hhi' hchain'.2
      (by
        simp only [List.length_cons, Nat.cast_add, Nat.cast_one] at hlen ⊢
        omega)
    refine ⟨d', c', ?_, hc', hb', hexp⟩
    rw [List.cons_append, run_cons_of d _ key call (rest ++ [final]) false hstep, hrun]
    rfl

/-- C6 (as stated, refuted): with `Max = 1`, `Duration` one second and
`BanDuration` one hour, the second call for `"a"`, ten milliseconds after the
first, returns false and leaves the client unbanned: the first call created
the client without taking a token, so the second call is the first to consult
the limiter and finds its bucket full. -/
theorem Increment_second_call_counterexample :
    (∃ d', exStrict.run "a" [Call.atTime exNow, Call.atTime (exNow + 10 * exMilli)]
        = some ([false, false], d') ∧
      ∃ c, d'.clients.lookup "a" = some c ∧ c.banned = false) ∧
    ¬ ∃ d', exStrict.run "a" [Call.atTime exNow, Call.atTime (exNow + 10 * exMilli)]
        = some ([false, true], d') := by
  obtain ⟨d', hrun, hc⟩ := run_untracked exStrict "a"
    [Call.atTime exNow, Call.atTime (exNow + 10 * exMilli)] (by decide) (by decide)
  have hrun' : exStrict.run "a" [Call.atTime exNow, Call.atTime (exNow + 10 * exMilli)]
      = some ([false, false], d') := hrun
  refine ⟨⟨d', hrun', hc (by simp)⟩, ?_⟩
  rintro ⟨d'', hd''⟩
  rw [hrun'] at hd''
  simp at hd''

/-- C6 (amended): for a defender with `Max >= 1` and `Duration > 0` and a key
that is not tracked, take `Max + 2` calls of `Increment` for that key: a first
one, then `Max` calls (`second :: mid`), then a last one, the wall clock read
by the limiter being non-decreasing from the second call on and the last call
being at most half a `Duration` after the second. The first `Max + 1` calls
return false, the `(Max + 2)`-th returns true and leaves the client with
`banned = true` and `expiresAt = now + BanDuration`. -/
theorem Increment_bans_after_quota (d : Defender K) (key : K) (first second last : Call)
    (mid : List Call) (hD : 0 < d.Duration) (hkey : d.clients.lookup key = none)
    (hlen : (mid.length : Int) + 1 = d.Max)
    (hsorted : List.Sorted (· ≤ ·) ((second :: (mid ++ [last])).map Call.wallLimit))
    (hhalf : 2 * (last.wallLimit - second.wallLimit) ≤ d.Duration) :
    ∃ d', d.run key (first :: second :: (mid ++ [last]))
        = some (List.replicate (mid.length + 2) false ++ [true], d') ∧
      ∃ c, d'.clients.lookup key = some c ∧ c.banned = true ∧
        c.expiresAt = last.now + d.BanDuration := by
  have hMax : 1 ≤ d.Max := by
    have : (0 : Int) ≤ (mid.length : Int) := Int.natCast_nonneg _
    omega
  have hwindow : last.wallLimit < second.wallLimit + d.Duration := by
    have hD' : (0 : Int) < d.Duration := hD
    have hhalf' : (2 : Int) * (last.wallLimit - second.wallLimit) ≤ d.Duration := hhalf
    linarith
  have hfirst := Increment_absent d key first.now first.wallExpired first.wallLimit hkey
  have hnotD : ¬ d.Duration ≤ 0 := not_le.mpr hD
  have hnew : d.newLimiter
      = { limit := rate.Limit.oneEvery d.Duration, burst := d.Max, tokens := (d.Max : ℚ),
          last := 0 } := by
    simp [Defender.newLimiter, rate.NewLimiter, rate.Every, hnotD]
  have hlimit : d.newLimiter.limit = rate.Limit.oneEvery d.Duration := by rw [hnew]
  have hburst : d.newLimiter.burst = d.Max := by rw [hnew]
  have htok : d.newLimiter.tokens = (d.Max : ℚ) := by rw [hnew]
  have hMq : (1 : ℚ) ≤ (d.Max : ℚ) := by exact_mod_cast hMax
  have hadv : d.newLimiter.advance second.wallLimit = (d.Max : ℚ) := by
    apply le_antisymm
    · have := advance_le_burst d.newLimiter second.wallLimit
      rwa [hburst] at this
    · exact advance_ge d.newLimiter second.wallLimit d.Duration _ hlimit hD
        (by rw [hburst]) (by rw [htok])
  have hallow : d.newLimiter.AllowN second.wallLimit 1
      = (true, { d.newLimiter with last := second.wallLimit, tokens := (d.Max : ℚ) - 1 }) := by
    rw [AllowN_oneEvery d.newLimiter second.wallLimit d.Duration hlimit, hadv,
      if_pos ⟨by rw [hburst]; exact hMax, hMq⟩]
  have hsecond := Increment_active
    { d with clients := d.clients.insert key (NewClient key (some d.newLimiter) (d.newValidClientExpiration first.now)) }
    key second.now second.wallExpired second.wallLimit
    (NewClient key (some d.newLimiter) (d.newValidClientExpiration first.now)) d.newLimiter
    (AList.lookup_insert _) (Or.inl rfl) rfl
  rw [hallow] at hsecond
  simp only [if_true] at hsecond
  have hchain : List.Chain (· ≤ ·) second.wallLimit ((mid ++ [last]).map Call.wallLimit) := by
    have hp : List.Pairwise (· ≤ ·)
        (second.wallLimit :: (mid ++ [last]).map Call.wallLimit) := by
      simpa [List.Sorted] using hsorted
    exact hp.chain
  have hstate : ∃ d2 c2,
      Defender.Increment
        { d with clients := d.clients.insert key (NewClient key (some d.newLimiter) (d.newValidClientExpiration first.now)) }
        key second.now second.wallExpired second.wallLimit = some (false, d2) ∧
      d2.Max = d.Max ∧ d2.BanDuration = d.BanDuration ∧
      d2.clients.lookup key = some c2 ∧ c2.banned = false ∧
      c2.limiter
        = some { d.newLimiter with last := second.wallLimit, tokens := (d.Max : ℚ) - 1 } :=
    ⟨_, _, hsecond, rfl, rfl, lookup_store_self _ key _ _ (AList.lookup_insert _), rfl, rfl⟩
  obtain ⟨d2, c2, hsecond2, hM2, hB2, hc2, hb2, hl2⟩ := hstate
  obtain ⟨d', c', hrun, hc', hb', hexp⟩ := run_until_denied key d.Max d.Duration
    second.wallLimit last hD hwindow mid d2 c2
    { d.newLimiter with last := second.wallLimit, tokens := (d.Max : ℚ) - 1 } 1
    hM2 hc2 hb2 hl2 hburst hlimit
    (by simp) (by simp) hchain (by simp only [Nat.cast_one]; omega)
  rw [hB2] at hexp
  refine ⟨d', ?_, c', hc', hb', hexp⟩
  rw [run_cons_of d _ key first _ false hfirst, run_cons_of _ d2 key second _ false hsecond2,
    hrun]
  simp [List.replicate_succ]

theorem Increment_bans_after_quota_witness :
    0 < exStrict.Duration ∧
    exStrict.clients.lookup "a" = none ∧
    ((([] : List Call).length : Nat) : Int) + 1 = exStrict.Max ∧
    List.Sorted (· ≤ ·)
      ((Call.atTime (exNow + 10 * exMilli)
        :: ([] ++ [Call.atTime (exNow + 20 * exMilli)])).map Call.wallLimit) ∧
    2 * ((Call.atTime (exNow + 20 * exMilli)).wallLimit
      - (Call.atTime (exNow + 10 * exMilli)).wallLimit) ≤ exStrict.Duration ∧
    ∃ d', exStrict.run "a"
        (Call.atTime exNow :: Call.atTime (exNow + 10 * exMilli)
          :: ([] ++ [Call.atTime (exNow + 20 * exMilli)]))
        = some (List.replicate (([] : List Call).length + 2) false ++ [true], d') ∧
      ∃ c, d'.clients.lookup "a" = some c ∧ c.banned = true ∧
        c.expiresAt = (Call.atTime (exNow + 20 * exMilli)).now + exStrict.BanDuration :=
  ⟨by decide, by decide, by decide, by decide, by decide,
    Increment_bans_after_quota exStrict "a" (Call.atTime exNow)
      (Call.atTime (exNow + 10 * exMilli)) (Call.atTime (exNow + 20 * exMilli)) []
      (by decide) (by decide) (by decide) (by decide) (by decide)⟩

/-! ## The limiter of a new client -/

/-- C8 (as stated, refuted): with `Max = 50` and a `Duration` of one minute the
new limiter has burst 50 but gains one token per minute, not 50; over
`Duration/Max` it gains a fiftieth of a token. -/
theorem newLimiter_rate_counterexample :
    exEmpty.Max = 50 ∧ exEmpty.newLimiter.burst = 50 ∧
    exEmpty.newLimiter.limit.tokensFromDuration exEmpty.Duration = 1 ∧
    exEmpty.newLimiter.limit.tokensFromDuration exEmpty.Duration ≠ (exEmpty.Max : ℚ) ∧
    exEmpty.newLimiter.limit.tokensFromDuration (exEmpty.Duration / exEmpty.Max) = 1 / 50 := by
  refine ⟨rfl, rfl, ?_, ?_, ?_⟩ <;>
    norm_num [exEmpty, NewDefender, Defender.newLimiter, rate.NewLimiter, rate.Every, exMinute,
      rate.Limit.tokensFromDuration]

/-- C8 (amended): the limiter built by `newLimiter` has burst capacity `Max`, a
full bucket, and the rate `rate.Every(Duration)`: for `Duration > 0`, one event
per `Duration`, so that it gains `elapsed / Duration` tokens over `elapsed` and
exactly one token over `Duration`. -/
theorem newLimiter_configuration (d : Defender K) (hD : 0 < d.Duration) :
    d.newLimiter.burst = d.Max ∧ d.newLimiter.tokens = (d.Max : ℚ) ∧
    d.newLimiter.limit = rate.Every d.Duration ∧
    d.newLimiter.limit = rate.Limit.oneEvery d.Duration ∧
    (∀ elapsed : time.Duration,
      d.newLimiter.limit.tokensFromDuration elapsed = (elapsed : ℚ) / (d.Duration : ℚ)) ∧
    d.newLimiter.limit.tokensFromDuration d.Duration = 1 := by
  have hnotD : ¬ d.Duration ≤ 0 := not_le.mpr hD
  have hDq : ((d.Duration : Int) : ℚ) ≠ 0 := by
    have : (0 : ℚ) < ((d.Duration : Int) : ℚ) := by exact_mod_cast hD
    exact ne_of_gt this
  have hlimit : d.newLimiter.limit = rate.Limit.oneEvery d.Duration := by
    simp [Defender.newLimiter, rate.NewLimiter, rate.Every, hnotD]
  refine ⟨rfl, rfl, rfl, hlimit, ?_, ?_⟩
  · intro elapsed
    rw [hlimit]
    rfl
  · rw [hlimit]
    simp only [rate.Limit.tokensFromDuration]
    exact div_self hDq

theorem newLimiter_configuration_witness :
    0 < exEmpty.Duration ∧
    exEmpty.newLimiter.burst = exEmpty.Max ∧ exEmpty.newLimiter.tokens = (exEmpty.Max : ℚ) ∧
    exEmpty.newLimiter.limit = rate.Every exEmpty.Duration ∧
    exEmpty.newLimiter.limit = rate.Limit.oneEvery exEmpty.Duration ∧
    (∀ elapsed : time.Duration,
      exEmpty.newLimiter.limit.tokensFromDuration elapsed
        = (elapsed : ℚ) / (exEmpty.Duration : ℚ)) ∧
    exEmpty.newLimiter.limit.tokensFromDuration exEmpty.Duration = 1 :=
  ⟨by decide, newLimiter_configuration exEmpty (by decide)⟩

/-! ## `BanList` and `Client` -/

theorem banList_loop (es : List (Sigma fun _ : K => Client K)) (acc : List (Client K)) :
    es.foldl (fun banList e => if e.2.banned then banList ++ [e.2] else banList) acc
      = acc ++ (es.filter (fun e => e.2.banned)).map (fun e => e.2) := by
  induction es generalizing acc with
  | nil => simp
  | cons e es ih =>
    rw [List.foldl_cons, ih]
    cases hb : e.2.banned <;> simp [hb, List.filter_cons]

theorem BanList_eq (d : Defender K) :
    d.BanList.1 = (d.clients.entries.filter (fun e => e.2.banned)).map (fun e => e.2) := by
  simp only [Defender.BanList]
  rw [banList_loop]
  simp

/-- C11: `BanList()` returns one element per key whose client is banned, and
nothing else: the banned entries of the map, in the order of the loop. Every
returned client is banned and is stored in the map, every banned entry is
returned, the length is the number of keys with a banned client, and the
defender is unchanged. -/
theorem BanList_exactly_banned (d : Defender K) :
    d.BanList.2 = d ∧
    d.BanList.1 = (d.clients.entries.filter (fun e => e.2.banned)).map (fun e => e.2) ∧
    (∀ c ∈ d.BanList.1, c.banned = true ∧ ∃ k, d.clients.lookup k = some c) ∧
    (∀ k c, d.clients.lookup k = some c → c.banned = true → c ∈ d.BanList.1) ∧
    d.BanList.1.length = d.clients.keys.countP
      (fun k => match d.clients.lookup k with
        | some c => c.banned
        | none => false) := by
  refine ⟨rfl, BanList_eq d, ?_, ?_, ?_⟩
  · intro c hc
    rw [BanList_eq, List.mem_map] at hc
    obtain ⟨⟨k, c'⟩, hmem, hcc⟩ := hc
    simp only at hcc
    subst hcc
    rw [List.mem_filter] at hmem
    exact ⟨by simpa using hmem.2, k, AList.mem_lookup_iff.mpr hmem.1⟩
  · intro k c hk hb
    rw [BanList_eq, List.mem_map]
    refine ⟨⟨k, c⟩, ?_, rfl⟩
    rw [List.mem_filter]
    exact ⟨AList.mem_lookup_iff.mp hk, by simpa using hb⟩
  · rw [BanList_eq, List.length_map, ← List.countP_eq_length_filter]
    have hkeys : d.clients.keys = d.clients.entries.map Sigma.fst := rfl
    rw [hkeys, List.countP_map]
    apply List.countP_congr
    intro e he
    obtain ⟨k, c⟩ := e
    have hl : d.clients.lookup k = some c := AList.mem_lookup_iff.mpr he
    simp [hl]

/-- C13: `Client(key)` returns the entry stored at `key` and true when the key
is present, the nil client and false when it is absent; the defender is
unchanged in both cases. -/
theorem Client_lookup (d : Defender K) (key : K) :
    (∀ c, d.clients.lookup key = some c → d.Client key = ((some c, true), d)) ∧
    (d.clients.lookup key = none → d.Client key = ((none, false), d)) ∧
    (d.Client key).2 = d := by
  refine ⟨?_, ?_, ?_⟩
  · intro c hc
    simp [Defender.Client, hc]
  · intro hc
    simp [Defender.Client, hc]
  · unfold Defender.Client
    cases d.clients.lookup key <;> rfl

theorem Client_lookup_witness :
    (exTracking (exClient true exNow)).clients.lookup "key1" = some (exClient true exNow) ∧
    (exTracking (exClient true exNow)).Client "key1"
      = ((some (exClient true exNow), true), exTracking (exClient true exNow)) ∧
    (exTracking (exClient true exNow)).clients.lookup "key2" = none ∧
    (exTracking (exClient true exNow)).Client "key2"
      = ((none, false), exTracking (exClient true exNow)) :=
  ⟨by decide,
    (Client_lookup (exTracking (exClient true exNow)) "key1").1 _ (by decide),
    by decide,
    (Client_lookup (exTracking (exClient true exNow)) "key2").2.1 (by decide)⟩

/-! ## The methods of a client -/

/-- C15: `Expired()` is true exactly when the clock is strictly after
`expiresAt` (so it is false at `expiresAt` itself), and `BanExpired()` is true
exactly when the client is banned and expired. -/
theorem Expired_iff (c : Client K) (t : time.Time) :
    (c.Expired t = true ↔ c.expiresAt < t) ∧
    c.Expired c.expiresAt = false ∧
    (c.BanExpired t = true ↔ c.banned = true ∧ c.Expired t = true) := by
  refine ⟨?_, ?_, ?_⟩
  · simp [Client.Expired, time.Time.After]
  · simp [Client.Expired, time.Time.After]
  · simp [Client.BanExpired]

/-- C16: `Ban()` sets `banned` to true and `Unban()` sets it to false, whatever
it was, so that each is idempotent, and neither changes `key`, `limiter` or
`expiresAt`; `SetExpiration(t)` sets `expiresAt` to `t` and changes no other
field. -/
theorem Ban_Unban_SetExpiration (c : Client K) (t : time.Time) :
    (c.Ban.banned = true ∧ c.Ban.key = c.key ∧ c.Ban.limiter = c.limiter ∧
      c.Ban.expiresAt = c.expiresAt ∧ c.Ban.Ban = c.Ban) ∧
    (c.Unban.banned = false ∧ c.Unban.key = c.key ∧ c.Unban.limiter = c.limiter ∧
      c.Unban.expiresAt = c.expiresAt ∧ c.Unban.Unban = c.Unban) ∧
    ((c.SetExpiration t).expiresAt = t ∧ (c.SetExpiration t).key = c.key ∧
      (c.SetExpiration t).limiter = c.limiter ∧ (c.SetExpiration t).banned = c.banned) :=
  ⟨⟨rfl, rfl, rfl, rfl, rfl⟩, ⟨rfl, rfl, rfl, rfl, rfl⟩, ⟨rfl, rfl, rfl, rfl⟩⟩

/-! ## `NewDefender` -/

/-- C12 (as stated, refuted): `NewDefender(0, 0, 0)` is not rejected; it is the
defender with these settings and an empty map, and `Increment` runs on it. -/
theorem NewDefender_nonpositive_counterexample :
    (NewDefender 0 0 0 : Defender String)
      = { clients := ∅, Duration := 0, BanDuration := 0, Max := 0 } ∧
    ∃ d', (NewDefender 0 0 0 : Defender String).Increment "key1" exNow exNow exNow
      = some (false, d') :=
  ⟨rfl, _, Increment_absent _ "key1" exNow exNow exNow (by decide)⟩

/-- With the rate `Inf` the limiter allows every event: a client that is not
banned is never blocked. -/
theorem run_unlimited (key : K) :
    ∀ (calls : List Call) (d : Defender K) (c : Client K) (lim : rate.Limiter),
      d.clients.lookup key = some c → c.banned = false → c.limiter = some lim →
      lim.limit = rate.Limit.inf →
      ∃ d' c', d.run key calls = some (List.replicate calls.length false, d') ∧
        d'.clients.lookup key = some c' ∧ c'.banned = false := by
  intro calls
  induction calls with
  | nil =>
    intro d c lim hc hb _ _
    exact ⟨d, c, rfl, hc, hb⟩
  | cons call rest ih =>
    intro d c lim hc hb hl hinf
    have hstep := Increment_active d key call.now call.wallExpired call.wallLimit c lim hc
      (Or.inl hb) hl
    rw [AllowN_inf lim call.wallLimit 1 hinf] at hstep
    simp only [if_true] at hstep
    obtain ⟨d', c', hrun, hc', hb'⟩ := ih
      (d.store key
        { limiter := some lim, expiresAt := d.newValidClientExpiration call.now,
          banned := false, key := c.key })
      _ lim (lookup_store_self d key c _ hc) rfl rfl hinf
    refine ⟨d', c', ?_, hc', hb'⟩
    rw [run_cons_of d _ key call rest false hstep, hrun]
    rfl

/-- With a positive window and a burst below one, the second call for a key is
denied. -/
theorem run_second_denied (d : Defender K) (key : K) (first second : Call)
    (hD : 0 < d.Duration) (hmax : d.Max ≤ 0) (hkey : d.clients.lookup key = none) :
    ∃ d' c, d.run key [first, second] = some ([false, true], d') ∧
      d'.clients.lookup key = some c ∧ c.banned = true := by
  have hfirst := Increment_absent d key first.now first.wallExpired first.wallLimit hkey
  have hnotD : ¬ d.Duration ≤ 0 := not_le.mpr hD
  have hlimit : d.newLimiter.limit = rate.Limit.oneEvery d.Duration := by
    simp [Defender.newLimiter, rate.NewLimiter, rate.Every, hnotD]
  have hburst : ¬ (1 ≤ d.newLimiter.burst ∧ (1 : ℚ) ≤ d.newLimiter.advance second.wallLimit) := by
    rintro ⟨h1, _⟩
    have hb : d.newLimiter.burst = d.Max := rfl
    rw [hb] at h1
    omega
  have hsecond := Increment_active
    { d with clients := d.clients.insert key (NewClient key (some d.newLimiter) (d.newValidClientExpiration first.now)) }
    key second.now second.wallExpired second.wallLimit
    (NewClient key (some d.newLimiter) (d.newValidClientExpiration first.now)) d.newLimiter
    (AList.lookup_insert _) (Or.inl rfl) rfl
  rw [AllowN_oneEvery _ second.wallLimit d.Duration hlimit, if_neg hburst] at hsecond
  simp only [Bool.false_eq_true, if_false] at hsecond
  have hstate : ∃ (d2 : Defender K) (c2 : Client K),
      Defender.Increment
        { d with clients := d.clients.insert key (NewClient key (some d.newLimiter) (d.newValidClientExpiration first.now)) }
        key second.now second.wallExpired second.wallLimit = some (true, d2) ∧
      d2.clients.lookup key = some c2 ∧ c2.banned = true :=
    ⟨_, _, hsecond, lookup_store_self _ key _ _ (AList.lookup_insert _), rfl⟩
  obtain ⟨d2, c2, hsecond2, hc2, hb2⟩ := hstate
  refine ⟨d2, c2, ?_, hc2, hb2⟩
  rw [run_cons_of d _ key first _ false hfirst, run_cons_of _ d2 key second _ true hsecond2]
  rfl

/-- With a non-positive window the limiter has the rate `Inf`: no call for an
untracked key is ever blocked. -/
theorem run_untracked_unlimited (d : Defender K) (key : K) (calls : List Call)
    (hD : d.Duration ≤ 0) (hkey : d.clients.lookup key = none) :
    ∃ d', d.run key calls = some (List.replicate calls.length false, d') := by
  cases calls with
  | nil => exact ⟨_, rfl⟩
  | cons call rest =>
    have hfirst := Increment_absent d key call.now call.wallExpired call.wallLimit hkey
    have hinf : d.newLimiter.limit = rate.Limit.inf := by
      simp [Defender.newLimiter, rate.NewLimiter, rate.Every, hD]
    obtain ⟨d', c', hrun, _, _⟩ := run_unlimited key rest
      { d with clients := d.clients.insert key (NewClient key (some d.newLimiter) (d.newValidClientExpiration call.now)) }
      (NewClient key (some d.newLimiter) (d.newValidClientExpiration call.now)) d.newLimiter
      (AList.lookup_insert _) rfl rfl hinf
    refine ⟨d', ?_⟩
    rw [run_cons_of d _ key call rest false hfirst, hrun]
    rfl

/-- C12 (amended): `NewDefender` validates nothing: for every `max`, `duration`
and `banDuration`, non-positive ones included, it returns the defender with
these settings and an empty map, on which the first `Increment` for a key
returns false. The settings show only later: with `duration > 0` and
`max <= 0` the second `Increment` for a key returns true and bans it, and with
`duration <= 0` every sequence of calls for a key returns false throughout. -/
theorem NewDefender_accepts_all (max : Int) (duration banDuration : time.Duration) :
    (NewDefender max duration banDuration : Defender K)
      = { clients := ∅, Duration := duration, BanDuration := banDuration, Max := max } ∧
    (∀ (key : K) (now wallExpired wallLimit : time.Time),
      ∃ d', (NewDefender max duration banDuration : Defender K).Increment key now wallExpired
        wallLimit = some (false, d')) ∧
    (0 < duration → max ≤ 0 → ∀ (key : K) (first second : Call),
      ∃ d' c, (NewDefender max duration banDuration : Defender K).run key [first, second]
          = some ([false, true], d') ∧
        d'.clients.lookup key = some c ∧ c.banned = true) ∧
    (duration ≤ 0 → ∀ (key : K) (calls : List Call),
      ∃ d', (NewDefender max duration banDuration : Defender K).run key calls
        = some (List.replicate calls.length false, d')) := by
  refine ⟨rfl, ?_, ?_, ?_⟩
  · intro key now wallExpired wallLimit
    exact ⟨_, Increment_absent _ key now wallExpired wallLimit (AList.lookup_empty key)⟩
  · intro hD hmax key first second
    exact run_second_denied (NewDefender max duration banDuration) key first second hD hmax
      (AList.lookup_empty key)
  · intro hD key calls
    exact run_untracked_unlimited (NewDefender max duration banDuration) key calls hD
      (AList.lookup_empty key)

theorem NewDefender_accepts_all_witness :
    ((0 : time.Duration) < exMinute ∧ (0 : Int) ≤ 0 ∧
      ∃ d' c, (NewDefender 0 exMinute exHour : Defender String).run "key1"
          [Call.atTime exNow, Call.atTime (exNow + exHour)] = some ([false, true], d') ∧
        d'.clients.lookup "key1" = some c ∧ c.banned = true) ∧
    ((0 : time.Duration) ≤ 0 ∧
      ∃ d', (NewDefender 50 0 exHour : Defender String).run "key1"
          [Call.atTime exNow, Call.atTime exNow, Call.atTime exNow]
        = some (List.replicate [Call.atTime exNow, Call.atTime exNow, Call.atTime exNow].length
            false, d')) :=
  ⟨⟨by decide, by decide,
      (NewDefender_accepts_all 0 exMinute exHour).2.2.1 (by decide) (by decide) "key1"
        (Call.atTime exNow) (Call.atTime (exNow + exHour))⟩,
    ⟨by decide,
      (NewDefender_accepts_all 50 0 exHour).2.2.2 (by decide) "key1"
        [Call.atTime exNow, Call.atTime exNow, Call.atTime exNow]⟩⟩

/-! ## The use of the mutex -/

theorem guarded_held_accesses (n : List MutexOp) (h : ∀ op ∈ n, op = MutexOp.access)
    (rest : List MutexOp) : guarded true (n ++ rest) = guarded true rest := by
  induction n with
  | nil => rfl
  | cons op ops ih =>
    have hop : op = MutexOp.access := h op (List.mem_cons_self _ _)
    subst hop
    simp only [List.cons_append, guarded, Bool.true_and]
    exact ih (fun o ho => h o (List.mem_cons_of_mem _ ho))

/-- C14: read as sequences of mutex operations and map accesses, `Client`,
`Increment` and `Cleanup` make all their accesses while holding the mutex, but
`BanList` makes its accesses, the first one included, without holding it. -/
theorem BanList_accesses_unguarded (d : Defender K) (key : K)
    (wallExpired wallLimit : time.Time) (wall : K → time.Time) :
    guarded false (d.ClientOps key) = true ∧
    guarded false (d.IncrementOps key wallExpired wallLimit) = true ∧
    guarded false (d.CleanupOps wall) = true ∧
    guarded false d.BanListOps = false := by
  refine ⟨rfl, ?_, ?_, rfl⟩
  · unfold Defender.IncrementOps
    cases d.clients.lookup key with
    | none => rfl
    | some client =>
      simp only
      repeat' split
      all_goals rfl
  · simp only [Defender.CleanupOps, guarded]
    rw [guarded_held_accesses]
    · rfl
    · intro op hop
      rw [List.mem_flatten] at hop
      obtain ⟨l, hl, hopl⟩ := hop
      rw [List.mem_map] at hl
      obtain ⟨e, _, rfl⟩ := hl
      split at hopl <;> simp at hopl <;> exact hopl

/-! ## What a call of `Increment` changes -/

/-- The two shapes of the state left by a call that returns: a new entry, or
the entry found stored back with the same key and still with a limiter. -/
theorem Increment_shape (d d' : Defender K) (key : K) (now wE wL : time.Time) (b : Bool)
    (h : d.Increment key now wE wL = some (b, d')) :
    (d.clients.lookup key = none ∧
      d' = { d with clients := d.clients.insert key (NewClient key (some d.newLimiter) (d.newValidClientExpiration now)) }) ∨
    (∃ c c', d.clients.lookup key = some c ∧ d' = d.store key c' ∧ c'.key = c.key ∧
      (c.limiter ≠ none → c'.limiter ≠ none)) := by
  cases hl : d.clients.lookup key with
  | none =>
    left
    rw [Increment_absent d key now wE wL hl] at h
    simp only [Option.some.injEq, Prod.mk.injEq] at h
    exact ⟨rfl, h.2.symm⟩
  | some c =>
    right
    by_cases hblocked : c.banned = true ∧ c.Expired wE = false
    · rw [Increment_blocked d key now wE wL c hl hblocked.1 hblocked.2] at h
      simp only [Option.some.injEq, Prod.mk.injEq] at h
      exact ⟨c, c, rfl, by rw [store_eq_self d key c hl]; exact h.2.symm, rfl, fun hc => hc⟩
    · have hact : c.banned = false ∨ c.Expired wE = true := by
        cases hbn : c.banned <;> cases hex : c.Expired wE <;> simp_all
      cases hlim : c.limiter with
      | none =>
        rw [Increment_nil d key now wE wL c hl hact hlim] at h
        simp at h
      | some lim =>
        rw [Increment_active d key now wE wL c lim hl hact hlim] at h
        cases hr : (lim.AllowN wL 1).1
        · simp only [hr, Bool.false_eq_true, if_false, Option.some.injEq, Prod.mk.injEq] at h
          exact ⟨c, _, rfl, h.2.symm, rfl, fun _ => by simp⟩
        · simp only [hr, if_true, Option.some.injEq, Prod.mk.injEq] at h
          exact ⟨c, _, rfl, h.2.symm, rfl, fun _ => by simp⟩

theorem Increment_returns (d : Defender K) (key : K) (now wE wL : time.Time)
    (hlim : ∀ c, d.clients.lookup key = some c → c.limiter ≠ none) :
    ∃ r, d.Increment key now wE wL = some r := by
  cases hl : d.clients.lookup key with
  | none => exact ⟨_, Increment_absent d key now wE wL hl⟩
  | some c =>
    by_cases hblocked : c.banned = true ∧ c.Expired wE = false
    · exact ⟨_, Increment_blocked d key now wE wL c hl hblocked.1 hblocked.2⟩
    · have hact : c.banned = false ∨ c.Expired wE = true := by
        cases hbn : c.banned <;> cases hex : c.Expired wE <;> simp_all
      cases hlimc : c.limiter with
      | none => exact absurd hlimc (hlim c hl)
      | some lim =>
        rw [Increment_active d key now wE wL c lim hl hact hlimc]
        split <;> exact ⟨_, rfl⟩

/-! ### The map of pointers -/

theorem le_foldr_max (l : List Nat) (x : Nat) (h : x ∈ l) : x ≤ l.foldr max 0 := by
  induction l with
  | nil => simp at h
  | cons y ys ih =>
    rw [List.foldr_cons]
    rcases List.mem_cons.mp h with rfl | hmem
    · exact le_max_left _ _
    · exact le_trans (ih hmem) (le_max_right _ _)

/-- The address given to a new client is not stored in the map. -/
theorem lookup_lt_fresh (d : PtrDefender K) (k : K) (p : Ptr)
    (h : d.clients.lookup k = some p) : p < d.fresh := by
  have hmem : (⟨k, p⟩ : Sigma fun _ : K => Ptr) ∈ d.clients.entries :=
    AList.mem_lookup_iff.mp h
  have hp : p ∈ d.clients.entries.map (fun e => e.2) := List.mem_map.mpr ⟨⟨k, p⟩, hmem, rfl⟩
  exact Nat.lt_succ_of_le (le_foldr_max _ p hp)

theorem PtrIncrement_absent (d : PtrDefender K) (key : K) (now wE wL : time.Time)
    (h : d.clients.lookup key = none) :
    d.Increment key now wE wL = some (false, { d with clients := d.clients.insert key d.fresh, heap := Function.update d.heap d.fresh (some (NewClient key (some d.newLimiter) (d.newValidClientExpiration now))) }) := by
  simp [PtrDefender.Increment, h]

theorem PtrIncrement_blocked (d : PtrDefender K) (key : K) (now wE wL : time.Time) (p : Ptr)
    (c : Client K) (h : d.clients.lookup key = some p) (hp : d.heap p = some c)
    (hb : c.banned = true) (hne : c.Expired wE = false) :
    d.Increment key now wE wL = some (true, d.write p c) := by
  simp [PtrDefender.Increment, h, hp, Client.BanExpired, hb, hne, Client.Banned]

theorem PtrIncrement_active (d : PtrDefender K) (key : K) (now wE wL : time.Time) (p : Ptr)
    (c : Client K) (lim : rate.Limiter) (h : d.clients.lookup key = some p)
    (hp : d.heap p = some c) (hb : c.banned = false ∨ c.Expired wE = true)
    (hl : c.limiter = some lim) :
    d.Increment key now wE wL =
      if (lim.AllowN wL 1).1 = true then
        some (false, d.write p
          { limiter := some (lim.AllowN wL 1).2, expiresAt := d.newValidClientExpiration now,
            banned := false, key := c.key })
      else
        some (true, d.write p
          { limiter := some (lim.AllowN wL 1).2, expiresAt := d.newBannedClientExpiration now,
            banned := true, key := c.key }) := by
  have hu : (if c.BanExpired wE = true then c.Unban else c).banned = false := by
    rcases hb with hb | he
    · simp [Client.BanExpired, hb]
    · cases hbn : c.banned <;> simp [Client.BanExpired, hbn, he, Client.Unban]
  have hlim : (if c.BanExpired wE = true then c.Unban else c).limiter = some lim := by
    split <;> simp [Client.Unban, hl]
  have hkey : (if c.BanExpired wE = true then c.Unban else c).key = c.key := by
    split <;> simp [Client.Unban]
  simp only [PtrDefender.Increment, h, hp, Client.Banned, hu, Client.ReachedLimit,
    Client.SetExpiration, hlim, Client.Ban, hkey]
  cases hr : (lim.AllowN wL 1).1 <;> simp [hr]

theorem PtrIncrement_nil_limiter (d : PtrDefender K) (key : K) (now wE wL : time.Time)
    (p : Ptr) (c : Client K) (h : d.clients.lookup key = some p) (hp : d.heap p = some c)
    (hb : c.banned = false ∨ c.Expired wE = true) (hl : c.limiter = none) :
    d.Increment key now wE wL = none := by
  have hu : (if c.BanExpired wE = true then c.Unban else c).banned = false := by
    rcases hb with hb | he
    · simp [Client.BanExpired, hb]
    · cases hbn : c.banned <;> simp [Client.BanExpired, hbn, he, Client.Unban]
  have hlim : (if c.BanExpired wE = true then c.Unban else c).limiter = none := by
    split <;> simp [Client.Unban, hl]
  simp [PtrDefender.Increment, h, hp, Client.Banned, hu, Client.ReachedLimit,
    Client.SetExpiration, hlim]

theorem clientAt_write (d : PtrDefender K) (p : Ptr) (c' : Client K) (k : K) :
    (d.write p c').clientAt k
      = if d.clients.lookup k = some p then some c' else d.clientAt k := by
  unfold PtrDefender.clientAt PtrDefender.write
  cases hk : d.clients.lookup k with
  | none => simp
  | some q =>
    by_cases hq : q = p
    · subst hq
      simp
    · simp [Function.update_noteq hq, hq]

/-- Storing a new address under a key keeps the clients unshared. -/
theorem unshared_insert_fresh (d : PtrDefender K) (key : K) (hun : d.Unshared) :
    ∀ k1 k2 q, (d.clients.insert key d.fresh).lookup k1 = some q →
      (d.clients.insert key d.fresh).lookup k2 = some q → k1 = k2 := by
  have hother : ∀ k, k ≠ key →
      (d.clients.insert key d.fresh).lookup k = d.clients.lookup k := fun k hk =>
    AList.lookup_insert_ne hk
  intro k1 k2 q h1 h2
  by_cases hk1 : k1 = key
  · by_cases hk2 : k2 = key
    · rw [hk1, hk2]
    · subst hk1
      simp only [AList.lookup_insert, Option.some.injEq] at h1
      simp only [hother k2 hk2] at h2
      exact absurd h1.symm (Nat.ne_of_lt (lookup_lt_fresh d k2 q h2))
  · by_cases hk2 : k2 = key
    · subst hk2
      simp only [AList.lookup_insert, Option.some.injEq] at h2
      simp only [hother k1 hk1] at h1
      exact absurd h2.symm (Nat.ne_of_lt (lookup_lt_fresh d k1 q h1))
    · simp only [hother k1 hk1] at h1
      simp only [hother k2 hk2] at h2
      exact hun k1 k2 q h1 h2

theorem represents_write_store (pd : PtrDefender K) (d : Defender K) (key : K) (p : Ptr)
    (c c' : Client K) (hR : Represents pd d) (hun : pd.Unshared)
    (hp : pd.clients.lookup key = some p) (hc : pd.heap p = some c) :
    Represents (pd.write p c') (d.store key c') := by
  obtain ⟨hD, hB, hM, hdang, hat⟩ := hR
  have hdl : d.clients.lookup key = some c := by
    rw [← hat key]
    simp [PtrDefender.clientAt, hp, hc]
  refine ⟨hD, hB, hM, ?_, ?_⟩
  · intro k q hk
    show Function.update pd.heap p (some c') q ≠ none
    by_cases hq : q = p
    · subst hq
      simp
    · rw [Function.update_noteq hq]
      exact hdang k q hk
  · intro k
    rw [clientAt_write]
    by_cases hk : k = key
    · subst hk
      rw [if_pos hp, lookup_store_self d k c c' hdl]
    · have hne : pd.clients.lookup k ≠ some p := fun hkp => hk (hun k key p hkp hp)
      rw [if_neg hne, lookup_store_ne d hk, hat k]

/-- On a state without shared clients the map of pointers and the map of
values run `Increment` alike: both panic, or both return the same boolean and
states that still correspond, without shared clients. -/
theorem Increment_represents (pd : PtrDefender K) (d : Defender K) (hR : Represents pd d)
    (hun : pd.Unshared) (key : K) (now wallExpired wallLimit : time.Time) :
    (pd.Increment key now wallExpired wallLimit = none ∧
      d.Increment key now wallExpired wallLimit = none) ∨
    ∃ b pd' d', pd.Increment key now wallExpired wallLimit = some (b, pd') ∧
      d.Increment key now wallExpired wallLimit = some (b, d') ∧
      Represents pd' d' ∧ pd'.Unshared := by
  have hR' := hR
  obtain ⟨hD, hB, hM, hdang, hat⟩ := hR'
  have hv : pd.newValidClientExpiration now = d.newValidClientExpiration now := by
    simp [PtrDefender.newValidClientExpiration, Defender.newValidClientExpiration,
      Defender.newClientExpiration, hD]
  have hbn : pd.newBannedClientExpiration now = d.newBannedClientExpiration now := by
    simp [PtrDefender.newBannedClientExpiration, Defender.newBannedClientExpiration,
      Defender.newClientExpiration, hB]
  have hnl : pd.newLimiter = d.newLimiter := by
    simp [PtrDefender.newLimiter, Defender.newLimiter, hD, hM]
  cases hl : pd.clients.lookup key with
  | none =>
    right
    have hdl : d.clients.lookup key = none := by
      rw [← hat key]
      simp [PtrDefender.clientAt, hl]
    have hp := PtrIncrement_absent pd key now wallExpired wallLimit hl
    rw [hv, hnl] at hp
    refine ⟨false, _, _, hp, Increment_absent d key now wallExpired wallLimit hdl,
      ⟨hD, hB, hM, ?_, ?_⟩, unshared_insert_fresh pd key hun⟩
    · intro k q hk
      show Function.update pd.heap pd.fresh _ q ≠ none
      by_cases hq : q = pd.fresh
      · subst hq
        simp
      · rw [Function.update_noteq hq]
        have hkk : k ≠ key := by
          intro hkey
          subst hkey
          simp only [AList.lookup_insert, Option.some.injEq] at hk
          exact hq hk.symm
        simp only [AList.lookup_insert_ne hkk] at hk
        exact hdang k q hk
    · intro k
      by_cases hk : k = key
      · subst hk
        simp [PtrDefender.clientAt, AList.lookup_insert]
      · simp only [PtrDefender.clientAt, AList.lookup_insert_ne hk]
        rw [← hat k]
        cases hq : pd.clients.lookup k with
        | none => simp [PtrDefender.clientAt, hq]
        | some q =>
          have hne : q ≠ pd.fresh := Nat.ne_of_lt (lookup_lt_fresh pd k q hq)
          simp [PtrDefender.clientAt, hq, Function.update_noteq hne]
  | some p =>
    cases hc : pd.heap p with
    | none => exact absurd hc (hdang key p hl)
    | some c =>
      have hdl : d.clients.lookup key = some c := by
        rw [← hat key]
        simp [PtrDefender.clientAt, hl, hc]
      by_cases hblocked : c.banned = true ∧ c.Expired wallExpired = false
      · right
        refine ⟨true, _, d,
          PtrIncrement_blocked pd key now wallExpired wallLimit p c hl hc hblocked.1 hblocked.2,
          Increment_blocked d key now wallExpired wallLimit c hdl hblocked.1 hblocked.2, ?_,
          hun⟩
        have hrep := represents_write_store pd d key p c c hR hun hl hc
        rwa [store_eq_self d key c hdl] at hrep
      · have hact : c.banned = false ∨ c.Expired wallExpired = true := by
          cases hbn' : c.banned <;> cases hex : c.Expired wallExpired <;> simp_all
        cases hlim : c.limiter with
        | none =>
          left
          exact ⟨PtrIncrement_nil_limiter pd key now wallExpired wallLimit p c hl hc hact hlim,
            Increment_nil d key now wallExpired wallLimit c hdl hact hlim⟩
        | some lim =>
          right
          have h1 := PtrIncrement_active pd key now wallExpired wallLimit p c lim hl hc hact hlim
          have h2 := Increment_active d key now wallExpired wallLimit c lim hdl hact hlim
          rw [hv, hbn] at h1
          cases hr : (lim.AllowN wallLimit 1).1
          · simp only [hr, Bool.false_eq_true, if_false] at h1 h2
            exact ⟨true, _, _, h1, h2, represents_write_store pd d key p c _ hR hun hl hc, hun⟩
          · simp only [hr, if_true] at h1 h2
            exact ⟨false, _, _, h1, h2, represents_write_store pd d key p c _ hR hun hl hc, hun⟩

/-- C18: in every state reachable from `NewDefender(max, duration, banDuration)`
by calls of `Increment` and `Cleanup`, every entry of the map has a limiter and
a `key` field equal to the key it is stored under; hence on such a state
`Increment` never meets a nil limiter: it returns, for every key and time. -/
theorem Reachable_entries_have_limiter (max : Int) (duration banDuration : time.Duration)
    (d : Defender K) (hr : Reachable max duration banDuration d) :
    (∀ k c, d.clients.lookup k = some c → c.limiter ≠ none ∧ c.key = k) ∧
    (∀ (key : K) (now wallExpired wallLimit : time.Time),
      ∃ r, d.Increment key now wallExpired wallLimit = some r) := by
  have hinv : ∀ k c, d.clients.lookup k = some c → c.limiter ≠ none ∧ c.key = k := by
    induction hr with
    | init =>
      intro k c hc
      simp [NewDefender] at hc
    | @increment d d' key now wE wL b _ hstep ih =>
      intro k c hc
      rcases Increment_shape d d' key now wE wL b hstep with
        ⟨_, hd'⟩ | ⟨c0, c', hc0, hd', hkey', hlim'⟩
      · by_cases hk : k = key
        · subst hk
          rw [hd'] at hc
          simp only [AList.lookup_insert, Option.some.injEq] at hc
          subst hc
          simp [NewClient]
        · rw [hd'] at hc
          simp only [AList.lookup_insert_ne hk] at hc
          exact ih k c hc
      · by_cases hk : k = key
        · subst hk
          rw [hd', lookup_store_self d k c0 c' hc0] at hc
          simp only [Option.some.injEq] at hc
          subst hc
          exact ⟨hlim' (ih k c0 hc0).1, by rw [hkey']; exact (ih k c0 hc0).2⟩
        · rw [hd', lookup_store_ne d hk c'] at hc
          exact ih k c hc
    | @cleanup d wall _ ih =>
      intro k c hc
      exact ih k c ((lookup_Cleanup d wall k c).mp hc).1
  exact ⟨hinv, fun key now wallExpired wallLimit =>
    Increment_returns d key now wallExpired wallLimit (fun c hc => (hinv key c hc).1)⟩

theorem Reachable_entries_have_limiter_witness :
    Reachable 50 exMinute exHour exAfterFirst ∧
    (∀ k c, exAfterFirst.clients.lookup k = some c → c.limiter ≠ none ∧ c.key = k) ∧
    (∀ (key : String) (now wallExpired wallLimit : time.Time),
      ∃ r, exAfterFirst.Increment key now wallExpired wallLimit = some r) :=
  have hr : Reachable 50 exMinute exHour exAfterFirst :=
    Reachable.increment Reachable.init
      (Increment_absent exEmpty "key1" exNow exNow exNow (by decide))
  ⟨hr, Reachable_entries_have_limiter 50 exMinute exHour exAfterFirst hr⟩

/-- C19: the result of `Increment` and the ban flag and limiter it leaves do not
depend on the argument `now`: from the same state and with the same readings
of the wall clock, the calls with `now1` and with `now2` either both panic or
both return, with the same boolean, the same map away from `key`, and at
`key` clients with the same `banned`, `limiter` and `key` (only `expiresAt`
may differ). -/
theorem Increment_independent_of_now (d : Defender K) (key : K)
    (now1 now2 wallExpired wallLimit : time.Time) :
    (d.Increment key now1 wallExpired wallLimit = none ∧
      d.Increment key now2 wallExpired wallLimit = none) ∨
    ∃ b d1 d2 c1 c2,
      d.Increment key now1 wallExpired wallLimit = some (b, d1) ∧
      d.Increment key now2 wallExpired wallLimit = some (b, d2) ∧
      d1.clients.lookup key = some c1 ∧ d2.clients.lookup key = some c2 ∧
      c1.banned = c2.banned ∧ c1.limiter = c2.limiter ∧ c1.key = c2.key ∧
      (∀ k, k ≠ key → d1.clients.lookup k = d2.clients.lookup k) := by
  cases hl : d.clients.lookup key with
  | none =>
    right
    refine ⟨false, _, _, _, _, Increment_absent d key now1 wallExpired wallLimit hl,
      Increment_absent d key now2 wallExpired wallLimit hl, AList.lookup_insert _,
      AList.lookup_insert _, rfl, rfl, rfl, ?_⟩
    intro k hk
    simp [AList.lookup_insert_ne hk]
  | some c =>
    by_cases hblocked : c.banned = true ∧ c.Expired wallExpired = false
    · right
      exact ⟨true, d, d, c, c,
        Increment_blocked d key now1 wallExpired wallLimit c hl hblocked.1 hblocked.2,
        Increment_blocked d key now2 wallExpired wallLimit c hl hblocked.1 hblocked.2,
        hl, hl, rfl, rfl, rfl, fun _ _ => rfl⟩
    · have hact : c.banned = false ∨ c.Expired wallExpired = true := by
        cases hbn : c.banned <;> cases hex : c.Expired wallExpired <;> simp_all
      cases hlim : c.limiter with
      | none =>
        left
        exact ⟨Increment_nil d key now1 wallExpired wallLimit c hl hact hlim,
          Increment_nil d key now2 wallExpired wallLimit c hl hact hlim⟩
      | some lim =>
        right
        have h1 := Increment_active d key now1 wallExpired wallLimit c lim hl hact hlim
        have h2 := Increment_active d key now2 wallExpired wallLimit c lim hl hact hlim
        cases hr : (lim.AllowN wallLimit 1).1
        · simp only [hr, Bool.false_eq_true, if_false] at h1 h2
          refine ⟨true, _, _, _, _, h1, h2, lookup_store_self d key c _ hl,
            lookup_store_self d key c _ hl, rfl, rfl, rfl, ?_⟩
          intro k hk
          rw [lookup_store_ne d hk, lookup_store_ne d hk]
        · simp only [hr, if_true] at h1 h2
          refine ⟨false, _, _, _, _, h1, h2, lookup_store_self d key c _ hl,
            lookup_store_self d key c _ hl, rfl, rfl, rfl, ?_⟩
          intro k hk
          rw [lookup_store_ne d hk, lookup_store_ne d hk]

/-! ## The first sighting -/

/-- The first two calls for an untracked key: the first stores a full bucket,
the second takes the first token from it. -/
theorem run_first_two (d : Defender K) (key : K) (first second : Call)
    (hMax : 1 ≤ d.Max) (hD : 0 < d.Duration) (hkey : d.clients.lookup key = none) :
    ∃ (d2 : Defender K) (c2 : Client K),
      (∀ rest, d.run key (first :: second :: rest)
        = (d2.run key rest).map (fun q => (false :: false :: q.1, q.2))) ∧
      d2.Max = d.Max ∧ d2.BanDuration = d.BanDuration ∧
      d2.clients.lookup key = some c2 ∧ c2.banned = false ∧
      c2.limiter
        = some { limit := rate.Limit.oneEvery d.Duration, burst := d.Max,
                 tokens := (d.Max : ℚ) - 1, last := second.wallLimit } := by
  have hfirst := Increment_absent d key first.now first.wallExpired first.wallLimit hkey
  have hnotD : ¬ d.Duration ≤ 0 := not_le.mpr hD
  have hnew : d.newLimiter
      = { limit := rate.Limit.oneEvery d.Duration, burst := d.Max, tokens := (d.Max : ℚ),
          last := 0 } := by
    simp [Defender.newLimiter, rate.NewLimiter, rate.Every, hnotD]
  have hlimit : d.newLimiter.limit = rate.Limit.oneEvery d.Duration := by rw [hnew]
  have hburst : d.newLimiter.burst = d.Max := by rw [hnew]
  have htok : d.newLimiter.tokens = (d.Max : ℚ) := by rw [hnew]
  have hMq : (1 : ℚ) ≤ (d.Max : ℚ) := by exact_mod_cast hMax
  have hadv : d.newLimiter.advance second.wallLimit = (d.Max : ℚ) := by
    apply le_antisymm
    · have := advance_le_burst d.newLimiter second.wallLimit
      rwa [hburst] at this
    · exact advance_ge d.newLimiter second.wallLimit d.Duration _ hlimit hD
        (by rw [hburst]) (by rw [htok])
  have hallow : d.newLimiter.AllowN second.wallLimit 1
      = (true, { limit := rate.Limit.oneEvery d.Duration, burst := d.Max,
                 tokens := (d.Max : ℚ) - 1, last := second.wallLimit }) := by
    rw [AllowN_oneEvery d.newLimiter second.wallLimit d.Duration hlimit, hadv,
      if_pos ⟨by rw [hburst]; exact hMax, hMq⟩, hnew]
  have hsecond := Increment_active
    { d with clients := d.clients.insert key (NewClient key (some d.newLimiter) (d.newValidClientExpiration first.now)) }
    key second.now second.wallExpired second.wallLimit
    (NewClient key (some d.newLimiter) (d.newValidClientExpiration first.now)) d.newLimiter
    (AList.lookup_insert _) (Or.inl rfl) rfl
  rw [hallow] at hsecond
  simp only [if_true] at hsecond
  have hstate : ∃ (d2 : Defender K) (c2 : Client K),
      Defender.Increment
        { d with clients := d.clients.insert key (NewClient key (some d.newLimiter) (d.newValidClientExpiration first.now)) }
        key second.now second.wallExpired second.wallLimit = some (false, d2) ∧
      d2.Max = d.Max ∧ d2.BanDuration = d.BanDuration ∧
      d2.clients.lookup key = some c2 ∧ c2.banned = false ∧
      c2.limiter
        = some { limit := rate.Limit.oneEvery d.Duration, burst := d.Max,
                 tokens := (d.Max : ℚ) - 1, last := second.wallLimit } :=
    ⟨_, _, hsecond, rfl, rfl, lookup_store_self _ key _ _ (AList.lookup_insert _), rfl, rfl⟩
  obtain ⟨d2, c2, hsecond2, hM2, hB2, hc2, hb2, hl2⟩ := hstate
  refine ⟨d2, c2, ?_, hM2, hB2, hc2, hb2, hl2⟩
  intro rest
  rw [run_cons_of d _ key first _ false hfirst, run_cons_of _ d2 key second _ false hsecond2]
  cases d2.run key rest <;> rfl

/-- C20: the first sighting of a key takes no token. For a defender with
`Max >= 1` and `Duration > 0` and a key that is not tracked, in `Max + 2` calls
of `Increment` for that key at the same instant `t` the first `Max + 1` return
false, leaving the client unbanned, and the `(Max + 2)`-th returns true and
bans the client until `t + BanDuration`. -/
theorem first_sighting_takes_no_token (d : Defender K) (key : K) (t : time.Time) (n : Nat)
    (hn : (n : Int) = d.Max) (hMax : 1 ≤ d.Max) (hD : 0 < d.Duration)
    (hkey : d.clients.lookup key = none) :
    (∃ dm, d.run key (List.replicate (n + 1) (Call.atTime t))
        = some (List.replicate (n + 1) false, dm) ∧
      ∃ c, dm.clients.lookup key = some c ∧ c.banned = false) ∧
    ∃ d', d.run key (List.replicate (n + 2) (Call.atTime t))
        = some (List.replicate (n + 1) false ++ [true], d') ∧
      ∃ c, d'.clients.lookup key = some c ∧ c.banned = true ∧
        c.expiresAt = t + d.BanDuration := by
  constructor
  · obtain ⟨dm, hrun, hc⟩ := run_untracked d key (List.replicate (n + 1) (Call.atTime t)) hkey
      (by simp only [List.length_replicate, Nat.cast_add, Nat.cast_one]; omega)
    rw [List.length_replicate] at hrun
    exact ⟨dm, hrun, hc (by simp)⟩
  · obtain ⟨m, rfl⟩ : ∃ m, n = m + 1 := ⟨n - 1, by omega⟩
    obtain ⟨d2, c2, hrun2, hM2, hB2, hc2, hb2, hl2⟩ :=
      run_first_two d key (Call.atTime t) (Call.atTime t) hMax hD hkey
    have hchain : List.Chain (· ≤ ·) t
        ((List.replicate m (Call.atTime t) ++ [Call.atTime t]).map Call.wallLimit) := by
      rw [← List.replicate_succ', List.map_replicate]
      exact List.chain_replicate_of_rel _ (le_refl t)
    have hwin : (Call.atTime t).wallLimit < t + d.Duration := by
      show t < t + d.Duration
      exact lt_add_of_pos_right t hD
    obtain ⟨d', c', hrun, hc', hb', hexp⟩ := run_until_denied key d.Max d.Duration t
      (Call.atTime t) hD hwin (List.replicate m (Call.atTime t)) d2 c2
      { limit := rate.Limit.oneEvery d.Duration, burst := d.Max, tokens := (d.Max : ℚ) - 1,
        last := t } 1
      hM2 hc2 hb2 hl2 rfl rfl (by simp) (by simp) hchain
      (by
        simp only [List.length_replicate, Nat.cast_one]
        simp only [Nat.cast_add, Nat.cast_one] at hn
        omega)
    rw [hB2] at hexp
    refine ⟨d', ?_, c', hc', hb', hexp⟩
    have hsplit : List.replicate (m + 1 + 2) (Call.atTime t)
        = Call.atTime t :: Call.atTime t :: (List.replicate m (Call.atTime t) ++ [Call.atTime t]) := by
      rw [← List.replicate_succ']
      rfl
    rw [hsplit, hrun2, hrun]
    simp [List.replicate_succ]

theorem first_sighting_takes_no_token_witness :
    ((1 : Nat) : Int) = exStrict.Max ∧ 1 ≤ exStrict.Max ∧ 0 < exStrict.Duration ∧
    exStrict.clients.lookup "a" = none ∧
    (∃ dm, exStrict.run "a" (List.replicate (1 + 1) (Call.atTime exNow))
        = some (List.replicate (1 + 1) false, dm) ∧
      ∃ c, dm.clients.lookup "a" = some c ∧ c.banned = false) ∧
    ∃ d', exStrict.run "a" (List.replicate (1 + 2) (Call.atTime exNow))
        = some (List.replicate (1 + 1) false ++ [true], d') ∧
      ∃ c, d'.clients.lookup "a" = some c ∧ c.banned = true ∧
        c.expiresAt = exNow + exStrict.BanDuration :=
  ⟨by decide, by decide, by decide, by decide,
    first_sighting_takes_no_token exStrict "a" exNow 1 (by decide) (by decide) (by decide)
      (by decide)⟩

end GoDefender
